import Mathlib

/-!
Verification of the sled-backed property-graph storage core
(`src/lib/src/sledds/managers.rs`) and the map-reduce plugin
(`src/plugins/map_reduce/src/lib.rs`).

Keyspaces are modelled as ordered association lists from byte keys to byte
values, mirroring sled `Tree`s.  The binary key codec lives in the `bytes`
module of the repository, which is not part of the provided sources, so the
codec definitions below are modelled from the spec (section 4.1): UUIDs are
16 raw bytes, types are one length byte followed by the type bytes, datetimes
are fixed-width big-endian integers whose byte order matches chronological
order, and unsized strings are raw terminal bytes.
-/

namespace IndraSled

/-- Bytes are naturals; valid encodings only produce values below 256. -/
abbrev Byte := Nat

/-- Modelled from the spec: big-endian fixed-width encoding of a natural,
`w` bytes wide (most significant byte first). -/
def natToBytes : Nat → Nat → List Byte
  | 0, _ => []
  | w + 1, n => natToBytes w (n / 256) ++ [n % 256]

/-- Modelled from the spec: big-endian decoding of a byte sequence. -/
def bytesToNat (bs : List Byte) : Nat :=
  bs.foldl (fun a b => a * 256 + b) 0

@[simp] theorem length_natToBytes (w n : Nat) : (natToBytes w n).length = w := by
  induction w generalizing n with
  | zero => rfl
  | succ w ih => simp [natToBytes, ih]

theorem bytesToNat_append (xs ys : List Byte) :
    bytesToNat (xs ++ ys) = ys.foldl (fun a b => a * 256 + b) (bytesToNat xs) := by
  simp [bytesToNat, List.foldl_append]

theorem bytesToNat_natToBytes {w n : Nat} (h : n < 256 ^ w) :
    bytesToNat (natToBytes w n) = n := by
  induction w generalizing n with
  | zero =>
    interval_cases n
    rfl
  | succ w ih =>
    have hdiv : n / 256 < 256 ^ w := by
      rw [Nat.div_lt_iff_lt_mul (by norm_num)]
      calc n < 256 ^ (w + 1) := h
        _ = 256 ^ w * 256 := by ring
    have := ih hdiv
    simp only [natToBytes, bytesToNat_append, List.foldl_cons, List.foldl_nil, this]
    omega

theorem natToBytes_inj {w a b : Nat} (ha : a < 256 ^ w) (hb : b < 256 ^ w)
    (h : natToBytes w a = natToBytes w b) : a = b := by
  have := congrArg bytesToNat h
  rwa [bytesToNat_natToBytes ha, bytesToNat_natToBytes hb] at this

/-- Validity of a UUID component: a 128-bit value. -/
def ValidUuid (u : Nat) : Prop := u < 2 ^ 128

/-- Validity of a datetime component: fits the fixed 8-byte encoding. -/
def ValidDT (d : Nat) : Prop := d < 2 ^ 64

/-- Validity of a type component: at most 255 bytes, each a real byte. -/
def ValidTy (t : List Byte) : Prop := t.length ≤ 255 ∧ ∀ b ∈ t, b < 256

instance (u : Nat) : Decidable (ValidUuid u) := by unfold ValidUuid; infer_instance
instance (d : Nat) : Decidable (ValidDT d) := by unfold ValidDT; infer_instance
instance (t : List Byte) : Decidable (ValidTy t) := by unfold ValidTy; infer_instance

/-- Modelled from the spec: UUID key component, 16 raw bytes. -/
def encUuid (u : Nat) : List Byte := natToBytes 16 u

/-- Modelled from the spec: type key component, one length byte then the bytes. -/
def encType (t : List Byte) : List Byte := t.length :: t

/-- Modelled from the spec: datetime key component, 8 bytes big-endian so that
byte order matches chronological order. -/
def encDateTime (d : Nat) : List Byte := natToBytes 8 d

/-- Modelled from the spec: the largest encodable datetime. -/
def MAX_DATETIME : Nat := 2 ^ 64 - 1

@[simp] theorem length_encUuid (u : Nat) : (encUuid u).length = 16 := by
  simp [encUuid]

@[simp] theorem length_encDateTime (d : Nat) : (encDateTime d).length = 8 := by
  simp [encDateTime]

theorem encUuid_inj {a b : Nat} (ha : ValidUuid a) (hb : ValidUuid b)
    (h : encUuid a = encUuid b) : a = b := by
  exact natToBytes_inj (by simpa [ValidUuid] using ha) (by simpa [ValidUuid] using hb) h

theorem encDateTime_inj {a b : Nat} (ha : ValidDT a) (hb : ValidDT b)
    (h : encDateTime a = encDateTime b) : a = b := by
  exact natToBytes_inj (by simpa [ValidDT] using ha) (by simpa [ValidDT] using hb) h

/-! ### Composite keys (`build` calls in the managers) -/

/-- Key of a vertex record: `build(&[Component::Uuid(id)])`. -/
def vertexKey (id : Nat) : List Byte := encUuid id

/-- Key of an edge record: `build(&[Uuid(outbound_id), Type(t), Uuid(inbound_id)])`. -/
def edgeKey (o : Nat) (t : List Byte) (i : Nat) : List Byte :=
  encUuid o ++ encType t ++ encUuid i

/-- Key of a forward or reverse edge range entry:
`build(&[Uuid(first_id), Type(t), DateTime(update_datetime), Uuid(second_id)])`. -/
def edgeRangeKey (first : Nat) (t : List Byte) (dt : Nat) (second : Nat) : List Byte :=
  encUuid first ++ encType t ++ encDateTime dt ++ encUuid second

/-- Key of a vertex property: `build(&[Uuid(vertex_id), UnsizedString(name)])`. -/
def vertexPropKey (v : Nat) (name : List Byte) : List Byte :=
  encUuid v ++ name

/-- Key of an edge property:
`build(&[Uuid(outbound_id), Type(t), Uuid(inbound_id), UnsizedString(name)])`. -/
def edgePropKey (o : Nat) (t : List Byte) (i : Nat) (name : List Byte) : List Byte :=
  encUuid o ++ encType t ++ encUuid i ++ name

/-- Scan key prefix used when iterating the properties of one edge. -/
def edgePropKeyPfx (o : Nat) (t : List Byte) (i : Nat) : List Byte :=
  encUuid o ++ encType t ++ encUuid i

/-! ### Cursor readers (modelled from the spec: the `bytes` reader primitives) -/

/-- A decoded edge range entry `(first, type, datetime, second)`. -/
structure RangeItem where
  first : Nat
  ty : List Byte
  dt : Nat
  second : Nat
  deriving DecidableEq, Repr

/-- Modelled from the spec: reading `Uuid, Type, DateTime, Uuid` off a cursor
over an edge range key. -/
def decodeEdgeRangeKey (k : List Byte) : RangeItem :=
  let o := bytesToNat (k.take 16)
  let k1 := k.drop 16
  let tlen := k1.headD 0
  let t := k1.tail.take tlen
  let k2 := k1.tail.drop tlen
  let d := bytesToNat (k2.take 8)
  let k3 := k2.drop 8
  let i := bytesToNat (k3.take 16)
  ⟨o, t, d, i⟩

/-- Modelled from the spec: reading `Uuid, UnsizedString` off a vertex
property key. -/
def decodeVertexPropKey (k : List Byte) : Nat × List Byte :=
  (bytesToNat (k.take 16), k.drop 16)

/-- Modelled from the spec: reading `Uuid, Type, Uuid, UnsizedString` off an
edge property key. -/
def decodeEdgePropKey (k : List Byte) : Nat × List Byte × Nat × List Byte :=
  let o := bytesToNat (k.take 16)
  let k1 := k.drop 16
  let tlen := k1.headD 0
  let t := k1.tail.take tlen
  let k2 := k1.tail.drop tlen
  let i := bytesToNat (k2.take 16)
  let name := k2.drop 16
  (o, t, i, name)

/-- Modelled from the spec: `read_datetime` over a stored edge value. -/
def decodeDateTimeValue (v : List Byte) : Nat :=
  bytesToNat (v.take 8)

theorem take_len_append (xs ys : List Byte) : (xs ++ ys).take xs.length = xs :=
  List.take_left' rfl

theorem drop_len_append (xs ys : List Byte) : (xs ++ ys).drop xs.length = ys :=
  List.drop_left' rfl

theorem decodeEdgeRangeKey_enc {a d b : Nat} {t : List Byte} (ha : ValidUuid a)
    (hd : ValidDT d) (hb : ValidUuid b) (rest : List Byte) :
    decodeEdgeRangeKey (edgeRangeKey a t d b ++ rest) = ⟨a, t, d, b⟩ := by
  have h16 : (encUuid a).length = 16 := length_encUuid a
  have h16b : (encUuid b).length = 16 := length_encUuid b
  have h8 : (encDateTime d).length = 8 := length_encDateTime d
  simp only [decodeEdgeRangeKey, edgeRangeKey, encType, List.append_assoc, List.cons_append,
    List.take_left' h16, List.drop_left' h16, List.headD_cons, List.tail_cons,
    take_len_append, drop_len_append,
    List.take_left' h8, List.drop_left' h8, List.take_left' h16b]
  simp only [encUuid, encDateTime]
  rw [bytesToNat_natToBytes (by simpa [ValidUuid] using ha),
    bytesToNat_natToBytes (by simpa [ValidDT] using hd),
    bytesToNat_natToBytes (by simpa [ValidUuid] using hb)]

theorem decodeEdgeRangeKey_enc' {a d b : Nat} {t : List Byte} (ha : ValidUuid a)
    (hd : ValidDT d) (hb : ValidUuid b) :
    decodeEdgeRangeKey (edgeRangeKey a t d b) = ⟨a, t, d, b⟩ := by
  have h0 := @decodeEdgeRangeKey_enc a d b t ha hd hb []
  simpa using h0

theorem decodeEdgePropKey_enc {o i : Nat} {t name : List Byte} (ho : ValidUuid o)
    (hi : ValidUuid i) :
    decodeEdgePropKey (edgePropKey o t i name) = (o, t, i, name) := by
  have h16 : (encUuid o).length = 16 := length_encUuid o
  have h16b : (encUuid i).length = 16 := length_encUuid i
  simp only [decodeEdgePropKey, edgePropKey, encType, List.append_assoc, List.cons_append,
    List.take_left' h16, List.drop_left' h16, List.headD_cons, List.tail_cons,
    take_len_append, drop_len_append,
    List.take_left' h16b, List.drop_left' h16b]
  simp only [encUuid]
  rw [bytesToNat_natToBytes (by simpa [ValidUuid] using ho),
    bytesToNat_natToBytes (by simpa [ValidUuid] using hi)]

theorem decodeVertexPropKey_enc {v : Nat} {name : List Byte} (hv : ValidUuid v) :
    decodeVertexPropKey (vertexPropKey v name) = (v, name) := by
  have h16 : (encUuid v).length = 16 := length_encUuid v
  simp only [decodeVertexPropKey, vertexPropKey, List.take_left' h16, List.drop_left' h16]
  simp only [encUuid]
  rw [bytesToNat_natToBytes (by simpa [ValidUuid] using hv)]

theorem decodeDateTimeValue_enc {d : Nat} (hd : ValidDT d) :
    decodeDateTimeValue (encDateTime d) = d := by
  simp only [decodeDateTimeValue, encDateTime]
  rw [List.take_of_length_le (by simp), bytesToNat_natToBytes (by simpa [ValidDT] using hd)]

theorem edgeRangeKey_inj {a d b a' d' b' : Nat} {t t' : List Byte}
    (ha : ValidUuid a) (hd : ValidDT d) (hb : ValidUuid b)
    (ha' : ValidUuid a') (hd' : ValidDT d') (hb' : ValidUuid b')
    (h : edgeRangeKey a t d b = edgeRangeKey a' t' d' b') :
    a = a' ∧ t = t' ∧ d = d' ∧ b = b' := by
  have := congrArg decodeEdgeRangeKey h
  rw [decodeEdgeRangeKey_enc' ha hd hb, decodeEdgeRangeKey_enc' ha' hd' hb'] at this
  injection this with h1 h2 h3 h4
  exact ⟨h1, h2, h3, h4⟩

theorem edgeKey_inj {o i o' i' : Nat} {t t' : List Byte}
    (ho : ValidUuid o) (hi : ValidUuid i) (ho' : ValidUuid o') (hi' : ValidUuid i')
    (h : edgeKey o t i = edgeKey o' t' i') : o = o' ∧ t = t' ∧ i = i' := by
  have h' : edgePropKey o t i [] = edgePropKey o' t' i' [] := by
    simpa [edgePropKey, edgeKey] using h
  have := congrArg decodeEdgePropKey h'
  rw [decodeEdgePropKey_enc ho hi, decodeEdgePropKey_enc ho' hi'] at this
  injection this with h1 h2
  injection h2 with h2 h3
  injection h3 with h3 h4
  exact ⟨h1, h2, h3⟩

theorem edgePropKey_inj {o i o' i' : Nat} {t t' n n' : List Byte}
    (ho : ValidUuid o) (hi : ValidUuid i) (ho' : ValidUuid o') (hi' : ValidUuid i')
    (h : edgePropKey o t i n = edgePropKey o' t' i' n') :
    o = o' ∧ t = t' ∧ i = i' ∧ n = n' := by
  have := congrArg decodeEdgePropKey h
  rw [decodeEdgePropKey_enc ho hi, decodeEdgePropKey_enc ho' hi'] at this
  injection this with h1 h2
  injection h2 with h2 h3
  injection h3 with h3 h4
  exact ⟨h1, h2, h3, h4⟩

/-! ### Ordered keyspaces (sled `Tree`s) -/

/-- Strict lexicographic order on byte strings, the order sled keeps keys in. -/
def bytesLt : List Byte → List Byte → Bool
  | [], [] => false
  | [], _ :: _ => true
  | _ :: _, [] => false
  | a :: as, b :: bs => a < b || (a == b && bytesLt as bs)

theorem bytesLt_irrefl (a : List Byte) : bytesLt a a = false := by
  induction a with
  | nil => rfl
  | cons x xs ih => simp [bytesLt, ih]

theorem bytesLt_trans : ∀ {a b c : List Byte},
    bytesLt a b = true → bytesLt b c = true → bytesLt a c = true
  | [], [], _, h, _ => by simp [bytesLt] at h
  | [], _ :: _, [], _, h => by simp [bytesLt] at h
  | [], _ :: _, _ :: _, _, _ => rfl
  | _ :: _, [], _, h, _ => by simp [bytesLt] at h
  | _ :: _, _ :: _, [], _, h => by simp [bytesLt] at h
  | a :: as, b :: bs, c :: cs, h1, h2 => by
    simp only [bytesLt, Bool.or_eq_true, Bool.and_eq_true, beq_iff_eq,
      decide_eq_true_eq] at h1 h2 ⊢
    rcases h1 with h1 | ⟨rfl, h1⟩
    · rcases h2 with h2 | ⟨rfl, h2⟩
      · exact Or.inl (Nat.lt_trans h1 h2)
      · exact Or.inl h1
    · rcases h2 with h2 | ⟨rfl, h2⟩
      · exact Or.inl h2
      · exact Or.inr ⟨rfl, bytesLt_trans h1 h2⟩

theorem bytesLt_of_not_lt_of_ne : ∀ {a b : List Byte},
    bytesLt a b = false → a ≠ b → bytesLt b a = true
  | [], [], _, h => absurd rfl h
  | [], _ :: _, h, _ => by simp [bytesLt] at h
  | _ :: _, [], _, _ => rfl
  | a :: as, b :: bs, h, hne => by
    simp only [bytesLt, Bool.or_eq_false_iff, Bool.and_eq_false_iff, beq_eq_false_iff_ne,
      ne_eq, decide_eq_false_iff_not, Nat.not_lt] at h
    simp only [bytesLt, Bool.or_eq_true, Bool.and_eq_true, beq_iff_eq, decide_eq_true_eq]
    obtain ⟨hba, h2⟩ := h
    rcases Nat.lt_or_ge b a with hlt | hge
    · exact Or.inl hlt
    · have hab : a = b := Nat.le_antisymm hge hba
      subst hab
      rcases h2 with h2 | h2
      · exact absurd rfl h2
      · refine Or.inr ⟨rfl, bytesLt_of_not_lt_of_ne h2 ?_⟩
        intro hh
        exact hne (by rw [hh])

/-- A keyspace: an association list from byte keys to byte values, kept in
ascending key order by `insert`. -/
abbrev Store := List (List Byte × List Byte)

namespace Store

/-- Point lookup. -/
def get (s : Store) (k : List Byte) : Option (List Byte) :=
  match s with
  | [] => none
  | kv :: rest => if kv.1 = k then some kv.2 else get rest k

/-- Point insert preserving key order (sled `Tree::insert`). -/
def insert (s : Store) (k v : List Byte) : Store :=
  match s with
  | [] => [(k, v)]
  | kv :: rest =>
    if bytesLt k kv.1 then (k, v) :: kv :: rest
    else if k = kv.1 then (k, v) :: rest
    else kv :: insert rest k v

/-- Point remove (sled `Tree::remove` / `Batch::remove`). -/
def remove (s : Store) (k : List Byte) : Store :=
  s.filter fun kv => kv.1 ≠ k

/-- Prefix scan (sled `Tree::scan_prefix`): all records whose key starts with
`pfx`, in key order. -/
def scanPfx (s : Store) (pfx : List Byte) : Store :=
  s.filter fun kv => pfx.isPrefixOf kv.1

/-- Ascending range scan from a lower bound (sled `Tree::range(low..)`). -/
def rangeFrom (s : Store) (low : List Byte) : Store :=
  s.filter fun kv => bytesLt kv.1 low = false

/-- Well-formedness: keys strictly ascending (hence unique), as in a sled tree. -/
def WF (s : Store) : Prop :=
  List.Pairwise (fun a b => bytesLt a.1 b.1 = true) s

theorem WF_nil : WF [] := List.Pairwise.nil

@[simp] theorem get_nil (k : List Byte) : get [] k = none := rfl

theorem get_eq_none_iff {s : Store} {k : List Byte} :
    get s k = none ↔ ∀ kv ∈ s, kv.1 ≠ k := by
  induction s with
  | nil => simp
  | cons kv rest ih =>
    by_cases h : kv.1 = k <;> simp [get, h, ih]

theorem mem_of_get_eq_some {s : Store} {k v : List Byte} (h : get s k = some v) :
    (k, v) ∈ s := by
  induction s with
  | nil => simp [get] at h
  | cons kv rest ih =>
    obtain ⟨k1, v1⟩ := kv
    by_cases hk : k1 = k
    · subst hk
      simp only [get, if_pos rfl] at h
      injection h with h
      subst h
      exact List.mem_cons_self _ _
    · simp only [get, if_neg hk] at h
      exact List.mem_cons_of_mem _ (ih h)

theorem get_eq_some_of_mem {s : Store} {k v : List Byte} (hwf : WF s)
    (h : (k, v) ∈ s) : get s k = some v := by
  induction s with
  | nil => simp at h
  | cons kv rest ih =>
    rcases List.mem_cons.mp h with h | h
    · subst h
      simp [get]
    · have hlt : bytesLt kv.1 k = true := by
        have := (List.pairwise_cons.mp hwf).1 (k, v) h
        simpa using this
      have hne : kv.1 ≠ k := by
        intro he
        rw [he, bytesLt_irrefl] at hlt
        exact absurd hlt (by simp)
      simp only [get, if_neg hne]
      exact ih (List.pairwise_cons.mp hwf).2 h

theorem mem_insert {s : Store} {k v : List Byte} {kv : List Byte × List Byte}
    (h : kv ∈ insert s k v) : kv = (k, v) ∨ kv ∈ s := by
  induction s with
  | nil => simpa [insert] using h
  | cons hd rest ih =>
    simp only [insert] at h
    split at h
    · rcases List.mem_cons.mp h with h | h
      · exact Or.inl h
      · exact Or.inr h
    · split at h
      · rcases List.mem_cons.mp h with h | h
        · exact Or.inl h
        · exact Or.inr (List.mem_cons_of_mem _ h)
      · rcases List.mem_cons.mp h with h | h
        · exact Or.inr (List.mem_cons.mpr (Or.inl h))
        · rcases ih h with h | h
          · exact Or.inl h
          · exact Or.inr (List.mem_cons_of_mem _ h)

theorem WF_insert {s : Store} (hwf : WF s) (k v : List Byte) : WF (insert s k v) := by
  induction s with
  | nil => simp [insert, WF]
  | cons hd rest ih =>
    obtain ⟨hhd, hrest⟩ := List.pairwise_cons.mp hwf
    simp only [insert]
    split
    · refine List.pairwise_cons.mpr ⟨?_, hwf⟩
      intro kv hkv
      rcases List.mem_cons.mp hkv with h | h
      · subst h; assumption
      · exact bytesLt_trans (by assumption) (hhd kv h)
    · next hlt =>
      split
      · next heq =>
        refine List.pairwise_cons.mpr ⟨?_, hrest⟩
        intro kv hkv
        have := hhd kv hkv
        simpa [heq] using this
      · next hne =>
        refine List.pairwise_cons.mpr ⟨?_, ih hrest⟩
        intro kv hkv
        rcases mem_insert hkv with h | h
        · subst h
          show bytesLt hd.1 k = true
          exact bytesLt_of_not_lt_of_ne (by simpa using hlt) hne
        · exact hhd kv h

theorem WF_remove {s : Store} (hwf : WF s) (k : List Byte) : WF (remove s k) :=
  List.Pairwise.sublist (List.filter_sublist s) hwf

theorem get_insert_self (s : Store) (k v : List Byte) :
    get (insert s k v) k = some v := by
  induction s with
  | nil => simp [insert, get]
  | cons hd rest ih =>
    simp only [insert]
    split
    · simp [get]
    · split
      · simp [get]
      · next hne =>
        have : hd.1 ≠ k := fun hh => hne hh.symm
        simp [get, this, ih]

theorem get_insert_ne (s : Store) {k j : List Byte} (v : List Byte) (h : j ≠ k) :
    get (insert s k v) j = get s j := by
  have hkj : k ≠ j := fun hh => h hh.symm
  induction s with
  | nil => simp [insert, get, hkj]
  | cons hd rest ih =>
    simp only [insert]
    split
    · simp [get, hkj]
    · next =>
      split
      · next heq =>
        subst heq
        simp [get, hkj]
      · simp only [get, ih]

theorem get_remove (s : Store) (k j : List Byte) :
    get (remove s k) j = if j = k then none else get s j := by
  induction s with
  | nil => simp [remove, get]
  | cons hd rest ih =>
    by_cases hk : hd.1 = k
    · have hstep : remove (hd :: rest) k = remove rest k := by
        simp [remove, List.filter_cons, hk]
      rw [hstep, ih]
      by_cases hj : j = k
      · simp [hj]
      · have hne : hd.1 ≠ j := by
          rw [hk]
          exact fun hh => hj hh.symm
        simp [hj, get, hne]
    · have hstep : remove (hd :: rest) k = hd :: remove rest k := by
        simp [remove, List.filter_cons, hk]
      rw [hstep]
      by_cases hj : hd.1 = j
      · have hjk : j ≠ k := fun hh => hk (by rw [hj, hh])
        simp [get, hj, hjk]
      · simp [get, hj, ih]

theorem mem_remove_iff {s : Store} {k : List Byte} {kv : List Byte × List Byte} :
    kv ∈ remove s k ↔ kv ∈ s ∧ kv.1 ≠ k := by
  simp [remove, List.mem_filter]

theorem mem_scanPfx_iff {s : Store} {pfx : List Byte} {kv : List Byte × List Byte} :
    kv ∈ scanPfx s pfx ↔ kv ∈ s ∧ pfx.isPrefixOf kv.1 = true := by
  simp [scanPfx, List.mem_filter]

end Store

/-! ### The uber-batch (`UberBatch` in `managers.rs`) -/

/-- One queued mutation in a sled `Batch`. -/
inductive BatchOp where
  | insert (k v : List Byte)
  | remove (k : List Byte)
  deriving DecidableEq, Repr

/-- The key an op addresses. -/
def BatchOp.key : BatchOp → List Byte
  | .insert k _ => k
  | .remove k => k

/-- The six keyspaces of a `SledHolder`. -/
structure SledState where
  vertices : Store
  edges : Store
  edge_ranges : Store
  reversed_edge_ranges : Store
  vertex_properties : Store
  edge_properties : Store
  deriving DecidableEq, Repr

/-- The all-empty holder state. -/
def SledState.empty : SledState := ⟨[], [], [], [], [], []⟩

/-- One pending op list per keyspace.  The Rust struct holds `Option<Batch>`
per keyspace, lazily initialized by the accessors; an absent batch behaves
exactly like an empty one under `apply`, so both are modelled as a list. -/
structure UberBatch where
  vertices : List BatchOp := []
  edges : List BatchOp := []
  edge_ranges : List BatchOp := []
  reversed_edge_ranges : List BatchOp := []
  vertex_properties : List BatchOp := []
  edge_properties : List BatchOp := []
  deriving DecidableEq, Repr

/-- The batch with no pending writes. -/
def UberBatch.empty : UberBatch := {}

/-- Apply one queued op to a keyspace. -/
def applyOp (st : Store) : BatchOp → Store
  | .insert k v => st.insert k v
  | .remove k => st.remove k

/-- Apply a pending op list in order (`Tree::apply_batch`). -/
def applyOps (ops : List BatchOp) (st : Store) : Store :=
  ops.foldl applyOp st

/-- `UberBatch::apply`: commit every pending op list to its keyspace.  The
atomicity of the surrounding sled transaction is modelled separately by
`UberBatch.applyT`. -/
def UberBatch.apply (b : UberBatch) (s : SledState) : SledState where
  vertices := applyOps b.vertices s.vertices
  edges := applyOps b.edges s.edges
  edge_ranges := applyOps b.edge_ranges s.edge_ranges
  reversed_edge_ranges := applyOps b.reversed_edge_ranges s.reversed_edge_ranges
  vertex_properties := applyOps b.vertex_properties s.vertex_properties
  edge_properties := applyOps b.edge_properties s.edge_properties

@[simp] theorem apply_vertices (b : UberBatch) (s : SledState) :
    (b.apply s).vertices = applyOps b.vertices s.vertices := rfl

@[simp] theorem apply_edges (b : UberBatch) (s : SledState) :
    (b.apply s).edges = applyOps b.edges s.edges := rfl

@[simp] theorem apply_edge_ranges (b : UberBatch) (s : SledState) :
    (b.apply s).edge_ranges = applyOps b.edge_ranges s.edge_ranges := rfl

@[simp] theorem apply_reversed_edge_ranges (b : UberBatch) (s : SledState) :
    (b.apply s).reversed_edge_ranges
      = applyOps b.reversed_edge_ranges s.reversed_edge_ranges := rfl

@[simp] theorem apply_vertex_properties (b : UberBatch) (s : SledState) :
    (b.apply s).vertex_properties = applyOps b.vertex_properties s.vertex_properties := rfl

@[simp] theorem apply_edge_properties (b : UberBatch) (s : SledState) :
    (b.apply s).edge_properties = applyOps b.edge_properties s.edge_properties := rfl

theorem SledState.ext_mk {a b : SledState}
    (hv : a.vertices = b.vertices) (he : a.edges = b.edges)
    (hf : a.edge_ranges = b.edge_ranges)
    (hr : a.reversed_edge_ranges = b.reversed_edge_ranges)
    (hvp : a.vertex_properties = b.vertex_properties)
    (hep : a.edge_properties = b.edge_properties) : a = b := by
  cases a
  cases b
  simp_all

/-- The net effect of an op list on the value stored at key `k` (last op on
`k` wins). -/
def opsEffect (ops : List BatchOp) (k : List Byte) (v0 : Option (List Byte)) :
    Option (List Byte) :=
  ops.foldl
    (fun acc op =>
      match op with
      | .insert k' v => if k' = k then some v else acc
      | .remove k' => if k' = k then none else acc)
    v0

theorem get_applyOp (st : Store) (op : BatchOp) (k : List Byte) :
    (applyOp st op).get k =
      match op with
      | .insert k' v => if k' = k then some v else st.get k
      | .remove k' => if k' = k then none else st.get k := by
  cases op with
  | insert k' v =>
    by_cases h : k' = k
    · subst h
      simp [applyOp, Store.get_insert_self]
    · simp [applyOp, h, Store.get_insert_ne st v (fun hh => h hh.symm)]
  | remove k' =>
    rw [show applyOp st (.remove k') = st.remove k' from rfl, Store.get_remove]
    by_cases h : k' = k
    · simp [h]
    · have h2 : ¬k = k' := fun hh => h hh.symm
      simp [h, h2]

/-- Master characterization: a point lookup after `apply_batch` is the fold of
the queued ops over the old value. -/
theorem get_applyOps (ops : List BatchOp) (st : Store) (k : List Byte) :
    (applyOps ops st).get k = opsEffect ops k (st.get k) := by
  induction ops generalizing st with
  | nil => rfl
  | cons op rest ih =>
    rw [show applyOps (op :: rest) st = applyOps rest (applyOp st op) from rfl, ih]
    rw [show opsEffect (op :: rest) k (st.get k)
        = opsEffect rest k (opsEffect [op] k (st.get k)) from rfl]
    congr 1
    rw [get_applyOp]
    cases op <;> simp [opsEffect]

theorem opsEffect_append (l1 l2 : List BatchOp) (k : List Byte) (v0 : Option (List Byte)) :
    opsEffect (l1 ++ l2) k v0 = opsEffect l2 k (opsEffect l1 k v0) := by
  simp [opsEffect, List.foldl_append]

theorem opsEffect_single_insert (k' v k : List Byte) (v0 : Option (List Byte)) :
    opsEffect [.insert k' v] k v0 = if k' = k then some v else v0 := rfl

theorem opsEffect_single_remove (k' k : List Byte) (v0 : Option (List Byte)) :
    opsEffect [.remove k'] k v0 = if k' = k then none else v0 := rfl

theorem opsEffect_nil (k : List Byte) (v0 : Option (List Byte)) :
    opsEffect [] k v0 = v0 := rfl

theorem opsEffect_not_mentioned {ops : List BatchOp} {k : List Byte}
    (h : ∀ op ∈ ops, op.key ≠ k) (v0 : Option (List Byte)) :
    opsEffect ops k v0 = v0 := by
  induction ops generalizing v0 with
  | nil => rfl
  | cons op rest ih =>
    have hop := h op (List.mem_cons_self _ _)
    have hrest : ∀ op ∈ rest, BatchOp.key op ≠ k := fun o ho => h o (List.mem_cons_of_mem _ ho)
    cases op with
    | insert k' v =>
      simp only [BatchOp.key] at hop
      rw [show opsEffect (BatchOp.insert k' v :: rest) k v0
          = opsEffect rest k (if k' = k then some v else v0) from rfl, if_neg hop, ih hrest]
    | remove k' =>
      simp only [BatchOp.key] at hop
      rw [show opsEffect (BatchOp.remove k' :: rest) k v0
          = opsEffect rest k (if k' = k then none else v0) from rfl, if_neg hop, ih hrest]

/-- A list of ops that are all removes. -/
def AllRemoves (ops : List BatchOp) : Prop :=
  ∀ op ∈ ops, ∃ k, op = .remove k

theorem opsEffect_allRemoves_none {ops : List BatchOp} (hall : AllRemoves ops)
    (k : List Byte) : opsEffect ops k none = none := by
  induction ops with
  | nil => rfl
  | cons op rest ih =>
    have hrest : AllRemoves rest := fun o ho => hall o (List.mem_cons_of_mem _ ho)
    obtain ⟨j, rfl⟩ := hall op (List.mem_cons_self _ _)
    rw [show opsEffect (BatchOp.remove j :: rest) k none
        = opsEffect rest k (if j = k then none else none) from rfl]
    simp only [ite_self]
    exact ih hrest

theorem opsEffect_allRemoves_mem {ops : List BatchOp} {k : List Byte}
    (hall : AllRemoves ops) (h : BatchOp.remove k ∈ ops) (v0 : Option (List Byte)) :
    opsEffect ops k v0 = none := by
  induction ops generalizing v0 with
  | nil => simp at h
  | cons op rest ih =>
    have hrest : AllRemoves rest := fun o ho => hall o (List.mem_cons_of_mem _ ho)
    rcases List.mem_cons.mp h with h2 | h2
    · subst h2
      rw [show opsEffect (BatchOp.remove k :: rest) k v0
          = opsEffect rest k (if k = k then none else v0) from rfl, if_pos rfl]
      exact opsEffect_allRemoves_none hrest k
    · obtain ⟨j, rfl⟩ := hall op (List.mem_cons_self _ _)
      rw [show opsEffect (BatchOp.remove j :: rest) k v0
          = opsEffect rest k (if j = k then none else v0) from rfl]
      exact ih hrest h2 _

theorem opsEffect_allRemoves_not_mem {ops : List BatchOp} {k : List Byte}
    (hall : AllRemoves ops) (h : BatchOp.remove k ∉ ops) (v0 : Option (List Byte)) :
    opsEffect ops k v0 = v0 := by
  refine opsEffect_not_mentioned ?_ v0
  intro op hop
  obtain ⟨j, rfl⟩ := hall op hop
  intro hh
  simp only [BatchOp.key] at hh
  subst hh
  exact h hop

/-! ### Iterator helper (`take_while_prefixed` in `managers.rs`) -/

/-- `take_while_prefixed`: keep items while they are `Ok` and their key starts
with the prefix; the first error item or out-of-prefix key ends the scan and
is itself dropped. -/
def take_while_prefixed (iterator : List (Except Unit (List Byte × List Byte)))
    (pfx : List Byte) : List (Except Unit (List Byte × List Byte)) :=
  iterator.takeWhile fun item =>
    match item with
    | .ok kv => pfx.isPrefixOf kv.1
    | .error _ => false

/-- The same helper over the pure store model, whose iterators produce no
error items. -/
def takeWhilePfxOk (pfx : List Byte) (l : Store) : Store :=
  l.takeWhile fun kv => pfx.isPrefixOf kv.1

/-- `takeWhilePfxOk` agrees with `take_while_prefixed` on error-free iterators. -/
theorem takeWhilePfxOk_eq_take_while_prefixed (pfx : List Byte) (l : Store) :
    (take_while_prefixed (l.map Except.ok) pfx).map (fun it => it.toOption) =
      (takeWhilePfxOk pfx l).map some := by
  induction l with
  | nil => rfl
  | cons kv rest ih =>
    by_cases h : pfx.isPrefixOf kv.1
    · simpa [take_while_prefixed, takeWhilePfxOk, List.takeWhile_cons, h, Except.toOption]
        using ih
    · simp [take_while_prefixed, takeWhilePfxOk, List.takeWhile_cons, h]

/-! ### The managers -/

namespace VertexManager

/-- `VertexManager::key`. -/
def key (id : Nat) : List Byte := vertexKey id

/-- `VertexManager::create`: a direct (non-batched) insert of the encoded type
under the vertex id. -/
def create (s : SledState) (id : Nat) (t : List Byte) : SledState :=
  { s with vertices := s.vertices.insert (key id) (encType t) }

end VertexManager

namespace EdgeRangeManager

/-- The keyspace an edge range manager works on. -/
def tree (s : SledState) (reversed : Bool) : Store :=
  if reversed then s.reversed_edge_ranges else s.edge_ranges

/-- `EdgeRangeManager::key`. -/
def key (first : Nat) (t : List Byte) (dt : Nat) (second : Nat) : List Byte :=
  edgeRangeKey first t dt second

/-- `EdgeRangeManager::set`: enqueue an empty-value insert at the composed key
in the configured keyspace. -/
def set (reversed : Bool) (b : UberBatch) (first : Nat) (t : List Byte) (dt : Nat)
    (second : Nat) : UberBatch :=
  if reversed then
    { b with reversed_edge_ranges :=
        b.reversed_edge_ranges ++ [.insert (key first t dt second) []] }
  else
    { b with edge_ranges := b.edge_ranges ++ [.insert (key first t dt second) []] }

/-- `EdgeRangeManager::delete`: enqueue a remove at the composed key. -/
def delete (reversed : Bool) (b : UberBatch) (first : Nat) (t : List Byte) (dt : Nat)
    (second : Nat) : UberBatch :=
  if reversed then
    { b with reversed_edge_ranges :=
        b.reversed_edge_ranges ++ [.remove (key first t dt second)] }
  else
    { b with edge_ranges := b.edge_ranges ++ [.remove (key first t dt second)] }

/-- `EdgeRangeManager::iterate_for_owner`: prefix scan on the owner id,
decoding each key. -/
def iterate_for_owner (tr : Store) (id : Nat) : List RangeItem :=
  (takeWhilePfxOk (encUuid id) (tr.scanPfx (encUuid id))).map fun kv =>
    decodeEdgeRangeKey kv.1

/-- `EdgeRangeManager::iterate_for_range`:
with a type, scan ascending starting at `(id, t, high)` and keep keys under the
`(id, t)` prefix; without a type, prefix scan on `id`, post-filtering by
`datetime ≤ high` when a bound is supplied. -/
def iterate_for_range (tr : Store) (id : Nat) (t : Option (List Byte))
    (high : Option Nat) : List RangeItem :=
  match t with
  | some t =>
    let high := high.getD MAX_DATETIME
    let pfx := encUuid id ++ encType t
    let low_key := encUuid id ++ encType t ++ encDateTime high
    let iterator := tr.rangeFrom low_key
    (takeWhilePfxOk pfx iterator).map fun kv => decodeEdgeRangeKey kv.1
  | none =>
    let pfx := encUuid id
    let iterator := tr.rangeFrom pfx
    let mapped := (takeWhilePfxOk pfx iterator).map fun kv => decodeEdgeRangeKey kv.1
    match high with
    | some high => mapped.filter fun it => it.dt ≤ high
    | none => mapped

end EdgeRangeManager

namespace VertexPropertyManager

/-- `VertexPropertyManager::key`. -/
def key (v : Nat) (name : List Byte) : List Byte := vertexPropKey v name

/-- `VertexPropertyManager::iterate_for_owner`: prefix scan on the vertex id,
decoding owner and name from each key.  JSON values are kept as raw bytes;
the pure store model has no serialization failures. -/
def iterate_for_owner (tr : Store) (v : Nat) : List ((Nat × List Byte) × List Byte) :=
  (tr.scanPfx (encUuid v)).map fun kv => (decodeVertexPropKey kv.1, kv.2)

/-- `VertexPropertyManager::delete`: enqueue a remove of the property key. -/
def delete (b : UberBatch) (v : Nat) (name : List Byte) : UberBatch :=
  { b with vertex_properties := b.vertex_properties ++ [.remove (key v name)] }

end VertexPropertyManager

namespace EdgePropertyManager

/-- `EdgePropertyManager::key`. -/
def key (o : Nat) (t : List Byte) (i : Nat) (name : List Byte) : List Byte :=
  edgePropKey o t i name

/-- `EdgePropertyManager::iterate_for_owner`: prefix scan on the edge key
components, decoding each key. -/
def iterate_for_owner (tr : Store) (o : Nat) (t : List Byte) (i : Nat) :
    List ((Nat × List Byte × Nat × List Byte) × List Byte) :=
  (tr.scanPfx (edgePropKeyPfx o t i)).map fun kv => (decodeEdgePropKey kv.1, kv.2)

/-- `EdgePropertyManager::delete`: enqueue a remove of the property key. -/
def delete (b : UberBatch) (o : Nat) (t : List Byte) (i : Nat) (name : List Byte) :
    UberBatch :=
  { b with edge_properties := b.edge_properties ++ [.remove (key o t i name)] }

end EdgePropertyManager

namespace EdgeManager

/-- `EdgeManager::key`. -/
def key (o : Nat) (t : List Byte) (i : Nat) : List Byte := edgeKey o t i

/-- `EdgeManager::get`: point lookup of the edge record, decoding the stored
datetime. -/
def get (s : SledState) (o : Nat) (t : List Byte) (i : Nat) : Option Nat :=
  (s.edges.get (key o t i)).map decodeDateTimeValue

/-- `EdgeManager::set`: if a record already exists, enqueue deletion of its two
index entries at the old datetime; then enqueue the edge record insert and the
two index entries at the new datetime.  Reads go to the live keyspaces, not to
the batch. -/
def set (s : SledState) (b : UberBatch) (o : Nat) (t : List Byte) (i : Nat)
    (d : Nat) : UberBatch :=
  let b :=
    match get s o t i with
    | some old =>
      let b := EdgeRangeManager.delete false b o t old i
      EdgeRangeManager.delete true b i t old o
    | none => b
  let b := { b with edges := b.edges ++ [.insert (key o t i) (encDateTime d)] }
  let b := EdgeRangeManager.set false b o t d i
  EdgeRangeManager.set true b i t d o

/-- `EdgeManager::delete`: enqueue removal of the edge record, of both index
entries at the supplied datetime, and of every property of the edge. -/
def delete (s : SledState) (b : UberBatch) (o : Nat) (t : List Byte) (i : Nat)
    (d : Nat) : UberBatch :=
  let b := { b with edges := b.edges ++ [.remove (key o t i)] }
  let b := EdgeRangeManager.delete false b o t d i
  let b := EdgeRangeManager.delete true b i t d o
  (EdgePropertyManager.iterate_for_owner s.edge_properties o t i).foldl
    (fun b p => EdgePropertyManager.delete b p.1.1 p.1.2.1 p.1.2.2.1 p.1.2.2.2) b

end EdgeManager

namespace VertexManager

/-- `VertexManager::delete`: enqueue the cascading removal of the vertex, its
properties, and (through `EdgeManager::delete`) every edge incident to it found
in the forward and reverse range indices.  All reads go to the live keyspaces. -/
def delete (s : SledState) (b : UberBatch) (id : Nat) : UberBatch :=
  let b := { b with vertices := b.vertices ++ [.remove (key id)] }
  let b := (VertexPropertyManager.iterate_for_owner s.vertex_properties id).foldl
    (fun b p => VertexPropertyManager.delete b p.1.1 p.1.2) b
  let b := (EdgeRangeManager.iterate_for_owner s.edge_ranges id).foldl
    (fun b it => EdgeManager.delete s b it.first it.ty it.second it.dt) b
  (EdgeRangeManager.iterate_for_owner s.reversed_edge_ranges id).foldl
    (fun b it => EdgeManager.delete s b it.second it.ty it.first it.dt) b

end VertexManager

/-! ### Shape of the batches the managers build -/

/-- The removes `EdgeManager::delete` enqueues for the properties of one edge. -/
def epRemoves (s : SledState) (o : Nat) (t : List Byte) (i : Nat) : List BatchOp :=
  (EdgePropertyManager.iterate_for_owner s.edge_properties o t i).map fun p =>
    BatchOp.remove (edgePropKey p.1.1 p.1.2.1 p.1.2.2.1 p.1.2.2.2)

/-- The removes `VertexManager::delete` enqueues for the properties of one
vertex. -/
def vpRemoves (s : SledState) (id : Nat) : List BatchOp :=
  (VertexPropertyManager.iterate_for_owner s.vertex_properties id).map fun p =>
    BatchOp.remove (vertexPropKey p.1.1 p.1.2)

/-- Forward range entries scanned by the vertex cascade. -/
def fwdItems (s : SledState) (id : Nat) : List RangeItem :=
  EdgeRangeManager.iterate_for_owner s.edge_ranges id

/-- Reverse range entries scanned by the vertex cascade. -/
def revItems (s : SledState) (id : Nat) : List RangeItem :=
  EdgeRangeManager.iterate_for_owner s.reversed_edge_ranges id

theorem epFold_eq (l : List ((Nat × List Byte × Nat × List Byte) × List Byte))
    (b : UberBatch) :
    l.foldl (fun b p => EdgePropertyManager.delete b p.1.1 p.1.2.1 p.1.2.2.1 p.1.2.2.2) b
      = { b with edge_properties := b.edge_properties ++ l.map (fun p =>
          BatchOp.remove (edgePropKey p.1.1 p.1.2.1 p.1.2.2.1 p.1.2.2.2)) } := by
  induction l generalizing b with
  | nil => simp
  | cons p rest ih =>
    rw [List.foldl_cons, ih]
    simp [EdgePropertyManager.delete, EdgePropertyManager.key]

theorem edgeDelete_eq (s : SledState) (b : UberBatch) (o : Nat) (t : List Byte)
    (i : Nat) (d : Nat) :
    EdgeManager.delete s b o t i d = { b with
      edges := b.edges ++ [.remove (edgeKey o t i)],
      edge_ranges := b.edge_ranges ++ [.remove (edgeRangeKey o t d i)],
      reversed_edge_ranges := b.reversed_edge_ranges ++ [.remove (edgeRangeKey i t d o)],
      edge_properties := b.edge_properties ++ epRemoves s o t i } := by
  rw [show EdgeManager.delete s b o t i d
      = (EdgePropertyManager.iterate_for_owner s.edge_properties o t i).foldl
        (fun b p => EdgePropertyManager.delete b p.1.1 p.1.2.1 p.1.2.2.1 p.1.2.2.2)
        (EdgeRangeManager.delete true
          (EdgeRangeManager.delete false
            { b with edges := b.edges ++ [.remove (EdgeManager.key o t i)] } o t d i)
          i t d o) from rfl, epFold_eq]
  simp [EdgeRangeManager.delete, EdgeRangeManager.key, EdgeManager.key, epRemoves]

theorem vpFold_eq (l : List ((Nat × List Byte) × List Byte)) (b : UberBatch) :
    l.foldl (fun b p => VertexPropertyManager.delete b p.1.1 p.1.2) b
      = { b with vertex_properties := b.vertex_properties ++ l.map (fun p =>
          BatchOp.remove (vertexPropKey p.1.1 p.1.2)) } := by
  induction l generalizing b with
  | nil => simp
  | cons p rest ih =>
    rw [List.foldl_cons, ih]
    simp [VertexPropertyManager.delete, VertexPropertyManager.key]

theorem edgeDeleteFoldFwd_eq (s : SledState) (l : List RangeItem) (b : UberBatch) :
    l.foldl (fun b it => EdgeManager.delete s b it.first it.ty it.second it.dt) b
      = { b with
          edges := b.edges ++ l.map (fun it =>
            BatchOp.remove (edgeKey it.first it.ty it.second)),
          edge_ranges := b.edge_ranges ++ l.map (fun it =>
            BatchOp.remove (edgeRangeKey it.first it.ty it.dt it.second)),
          reversed_edge_ranges := b.reversed_edge_ranges ++ l.map (fun it =>
            BatchOp.remove (edgeRangeKey it.second it.ty it.dt it.first)),
          edge_properties := b.edge_properties ++ l.flatMap (fun it =>
            epRemoves s it.first it.ty it.second) } := by
  induction l generalizing b with
  | nil => simp
  | cons it rest ih =>
    rw [List.foldl_cons, edgeDelete_eq, ih]
    simp

theorem edgeDeleteFoldRev_eq (s : SledState) (l : List RangeItem) (b : UberBatch) :
    l.foldl (fun b it => EdgeManager.delete s b it.second it.ty it.first it.dt) b
      = { b with
          edges := b.edges ++ l.map (fun it =>
            BatchOp.remove (edgeKey it.second it.ty it.first)),
          edge_ranges := b.edge_ranges ++ l.map (fun it =>
            BatchOp.remove (edgeRangeKey it.second it.ty it.dt it.first)),
          reversed_edge_ranges := b.reversed_edge_ranges ++ l.map (fun it =>
            BatchOp.remove (edgeRangeKey it.first it.ty it.dt it.second)),
          edge_properties := b.edge_properties ++ l.flatMap (fun it =>
            epRemoves s it.second it.ty it.first) } := by
  induction l generalizing b with
  | nil => simp
  | cons it rest ih =>
    rw [List.foldl_cons, edgeDelete_eq, ih]
    simp

theorem vertexDelete_eq (s : SledState) (b : UberBatch) (id : Nat) :
    VertexManager.delete s b id = { b with
      vertices := b.vertices ++ [.remove (vertexKey id)],
      vertex_properties := b.vertex_properties ++ vpRemoves s id,
      edges := b.edges
        ++ (fwdItems s id).map (fun it => BatchOp.remove (edgeKey it.first it.ty it.second))
        ++ (revItems s id).map (fun it => BatchOp.remove (edgeKey it.second it.ty it.first)),
      edge_ranges := b.edge_ranges
        ++ (fwdItems s id).map (fun it =>
            BatchOp.remove (edgeRangeKey it.first it.ty it.dt it.second))
        ++ (revItems s id).map (fun it =>
            BatchOp.remove (edgeRangeKey it.second it.ty it.dt it.first)),
      reversed_edge_ranges := b.reversed_edge_ranges
        ++ (fwdItems s id).map (fun it =>
            BatchOp.remove (edgeRangeKey it.second it.ty it.dt it.first))
        ++ (revItems s id).map (fun it =>
            BatchOp.remove (edgeRangeKey it.first it.ty it.dt it.second)),
      edge_properties := b.edge_properties
        ++ (fwdItems s id).flatMap (fun it => epRemoves s it.first it.ty it.second)
        ++ (revItems s id).flatMap (fun it => epRemoves s it.second it.ty it.first) } := by
  rw [show VertexManager.delete s b id
      = (EdgeRangeManager.iterate_for_owner s.reversed_edge_ranges id).foldl
          (fun b it => EdgeManager.delete s b it.second it.ty it.first it.dt)
          ((EdgeRangeManager.iterate_for_owner s.edge_ranges id).foldl
            (fun b it => EdgeManager.delete s b it.first it.ty it.second it.dt)
            ((VertexPropertyManager.iterate_for_owner s.vertex_properties id).foldl
              (fun b p => VertexPropertyManager.delete b p.1.1 p.1.2)
              { b with vertices := b.vertices ++ [.remove (VertexManager.key id)] }))
        from rfl, vpFold_eq, edgeDeleteFoldFwd_eq, edgeDeleteFoldRev_eq]
  simp [VertexManager.key, vpRemoves, fwdItems, revItems, List.append_assoc]

/-- The batch `EdgeManager::set` builds, with the optional stale-index removes
first and the three inserts after. -/
theorem edgeSet_eq (s : SledState) (b : UberBatch) (o : Nat) (t : List Byte)
    (i : Nat) (d : Nat) :
    EdgeManager.set s b o t i d = { b with
      edges := b.edges ++ [.insert (edgeKey o t i) (encDateTime d)],
      edge_ranges := b.edge_ranges
        ++ (match EdgeManager.get s o t i with
            | some old => [BatchOp.remove (edgeRangeKey o t old i)]
            | none => [])
        ++ [.insert (edgeRangeKey o t d i) []],
      reversed_edge_ranges := b.reversed_edge_ranges
        ++ (match EdgeManager.get s o t i with
            | some old => [BatchOp.remove (edgeRangeKey i t old o)]
            | none => [])
        ++ [.insert (edgeRangeKey i t d o) []] } := by
  cases hg : EdgeManager.get s o t i with
  | none =>
    simp [EdgeManager.set, hg, EdgeRangeManager.set, EdgeRangeManager.key, EdgeManager.key]
  | some old =>
    simp [EdgeManager.set, hg, EdgeRangeManager.set, EdgeRangeManager.delete,
      EdgeRangeManager.key, EdgeManager.key, List.append_assoc]

/-! ### Transactional apply (`UberBatch::apply` wrapped in `trees.transaction`) -/

/-- One `apply_batch` call inside the transaction closure; sled may fail it,
which the model represents with an externally supplied failure flag. -/
def applyBatchT (fail : Bool) (ops : List BatchOp) (st : Store) : Except Unit Store :=
  if fail then .error () else .ok (applyOps ops st)

/-- Which of the six `apply_batch` calls fail (all `false`: a clean commit). -/
structure FailSpec where
  vertices : Bool := false
  edges : Bool := false
  edge_ranges : Bool := false
  reversed_edge_ranges : Bool := false
  vertex_properties : Bool := false
  edge_properties : Bool := false
  deriving DecidableEq, Repr

/-- `UberBatch::apply` under the store's transaction primitive: the six
`apply_batch` calls run inside one transaction; the first failure aborts it.
Per the spec the store's transaction is atomic, so an aborted transaction
leaves every keyspace untouched (`visibleAfter`). -/
def UberBatch.applyT (b : UberBatch) (fs : FailSpec) (s : SledState) :
    Except Unit SledState := do
  let v ← applyBatchT fs.vertices b.vertices s.vertices
  let e ← applyBatchT fs.edges b.edges s.edges
  let f ← applyBatchT fs.edge_ranges b.edge_ranges s.edge_ranges
  let r ← applyBatchT fs.reversed_edge_ranges b.reversed_edge_ranges s.reversed_edge_ranges
  let vp ← applyBatchT fs.vertex_properties b.vertex_properties s.vertex_properties
  let ep ← applyBatchT fs.edge_properties b.edge_properties s.edge_properties
  return ⟨v, e, f, r, vp, ep⟩

/-- The keyspace contents visible after the transaction finishes: the new
state on commit, the untouched pre-image on abort. -/
def visibleAfter (b : UberBatch) (fs : FailSpec) (s : SledState) : SledState :=
  match b.applyT fs s with
  | .ok s2 => s2
  | .error _ => s

/-! ### Map-reduce plugin model (`map_reduce/src/lib.rs`) -/

/-- The tuning knobs a `MapReduceDriver` supplies. -/
structure MRDriver where
  num_workers : Nat
  query_limit : Nat
  reducer_chunk_size : Nat
  deriving DecidableEq, Repr

/-- `ThreadPool::new(min(driver.num_workers(), 2))` (line 31). -/
def mapReducePoolWorkers (d : MRDriver) : Nat := min d.num_workers 2

/-- `let query_limit = min(driver.query_limit(), 1)` (line 37). -/
def mapReduceQueryLimit (d : MRDriver) : Nat := min d.query_limit 1

/-- `let reducer_chunk_size = min(driver.reducer_chunk_size() as usize, 2)`
(line 82). -/
def mapReduceChunkSize (d : MRDriver) : Nat := min d.reducer_chunk_size 2

/-- The range vertex query the producer issues on each page. -/
structure RangeVertexQuery where
  limit : Nat
  start_id : Option Nat
  deriving DecidableEq, Repr

/-- The query built in the producer loop (lines 50-54). -/
def producerQuery (d : MRDriver) (last_id : Option Nat) : RangeVertexQuery :=
  { limit := mapReduceQueryLimit d, start_id := last_id }

/-- Outcome of the consumer loop: a returned value (`done`), or a forever
blocked `receiver.recv()` (`stuck`) — the loop only checks `is_idle` after a
message arrives, and the function-local `sender` keeps the channel open, so an
empty channel with no in-flight task blocks every schedule. -/
inductive MROutcome (α : Type) where
  | done (v : Option α)
  | stuck
  deriving DecidableEq, Repr

/-- The consumer loop of `map_reduce` (lines 83-115) under the sequential
schedule in which every submitted task's message is already in the queue when
`recv` runs: receive a value, buffer it, and either submit a reduce of the
drained buffer (whose result re-enters the queue), stop when idle with at most
one buffered value (`pop` returns the last value or `None` for JSON null), or
keep receiving.  `none` means the fuel ran out (a modelling artifact only). -/
def consumerLoop {α : Type} (red : List α → α) (chunk : Nat) :
    Nat → List α → List α → Option (MROutcome α)
  | 0, _, _ => none
  | _ + 1, [], _ => some .stuck
  | fuel + 1, v :: queue, reducibles =>
    let reducibles := reducibles ++ [v]
    let is_idle := queue.isEmpty
    if chunk ≤ reducibles.length ∨ (is_idle = true ∧ 1 < reducibles.length) then
      consumerLoop red chunk fuel (queue ++ [red reducibles]) []
    else if is_idle then
      some (.done reducibles.getLast?)
    else
      consumerLoop red chunk fuel queue reducibles

/-- `map_reduce` after the producer finished: `mapped` are the map results the
producer's tasks sent into the channel (zero vertices: none at all). -/
def mapReduceModel {α : Type} (d : MRDriver) (red : List α → α) (mapped : List α)
    (fuel : Nat) : Option (MROutcome α) :=
  consumerLoop red (mapReduceChunkSize d) fuel mapped []

/-! ### Claim theorems -/

theorem isPrefixOf_append (p r : List Byte) : p.isPrefixOf (p ++ r) = true := by
  induction p with
  | nil => simp [List.isPrefixOf]
  | cons x xs ih => simp [List.isPrefixOf, ih]

theorem eq_append_of_isPrefixOf {p k : List Byte} (h : p.isPrefixOf k = true) :
    ∃ r, k = p ++ r := by
  induction p generalizing k with
  | nil => exact ⟨k, rfl⟩
  | cons x xs ih =>
    cases k with
    | nil => simp [List.isPrefixOf] at h
    | cons y ys =>
      simp only [List.isPrefixOf, Bool.and_eq_true, beq_iff_eq] at h
      obtain ⟨rfl, h⟩ := h
      obtain ⟨r, rfl⟩ := ih h
      exact ⟨r, rfl⟩

theorem dropWhile_head_not {α : Type} (p : α → Bool) (l : List α) {x : α} {xs : List α}
    (h : l.dropWhile p = x :: xs) : p x = false := by
  induction l with
  | nil => simp [List.dropWhile] at h
  | cons y ys ih =>
    rw [List.dropWhile_cons] at h
    split at h
    · exact ih h
    · next hp =>
      injection h with h1 _
      subst h1
      simpa using hp

theorem Store.remove_eq_self_of_get_none {s : Store} {k : List Byte}
    (h : s.get k = none) : s.remove k = s := by
  rw [Store.remove]
  rw [List.filter_eq_self]
  intro kv hkv
  simpa using Store.get_eq_none_iff.mp h kv hkv

theorem Store.scanPfx_eq_nil {s : Store} {pfx : List Byte}
    (h : ∀ kv ∈ s, pfx.isPrefixOf kv.1 = false) : s.scanPfx pfx = [] := by
  rw [Store.scanPfx]
  rw [List.filter_eq_nil_iff]
  intro kv hkv
  simp [h kv hkv]

/-- C8: the prefix-scan helper yields exactly the longest initial run of `Ok`
items whose keys start with the prefix, ending (without yielding it) at the
first error item or the first key outside the prefix. -/
theorem C8_take_while_prefixed_spec
    (items : List (Except Unit (List Byte × List Byte))) (pfx : List Byte) :
    ∃ rest, items = take_while_prefixed items pfx ++ rest
      ∧ (∀ it ∈ take_while_prefixed items pfx,
          ∃ kv, it = .ok kv ∧ pfx.isPrefixOf kv.1 = true)
      ∧ (∀ x xs, rest = x :: xs →
          (∃ e, x = .error e) ∨ ∃ kv, x = .ok kv ∧ pfx.isPrefixOf kv.1 = false) := by
  refine ⟨items.dropWhile (fun item => match item with
    | .ok kv => pfx.isPrefixOf kv.1
    | .error _ => false), ?_, ?_, ?_⟩
  · rw [take_while_prefixed]
    exact (List.takeWhile_append_dropWhile _ _).symm
  · intro it hit
    have hp := List.mem_takeWhile_imp hit
    cases it with
    | ok kv => exact ⟨kv, rfl, by simpa using hp⟩
    | error e => simp at hp
  · intro x xs hx
    have hp := dropWhile_head_not _ _ hx
    cases x with
    | ok kv => exact Or.inr ⟨kv, rfl, by simpa using hp⟩
    | error e => exact Or.inl ⟨e, rfl⟩

/-- C6 counterexample: with `driver.query_limit() = 2` the issued query carries
limit `1`, not `min(2, 2) = 2` as claimed. -/
theorem C6_counterexample :
    (producerQuery ⟨8, 2, 255⟩ none).limit = 1 ∧ (1 : Nat) ≠ min 2 2 := by
  decide

/-- C6 (amended): `map_reduce` issues every range vertex query with limit
`min(driver.query_limit(), 1)`, builds its pool with `min(num_workers, 2)`
workers, and drains the buffer at chunk size `min(reducer_chunk_size, 2)`. -/
theorem C6_clamps (d : MRDriver) (last_id : Option Nat) :
    (producerQuery d last_id).limit = min d.query_limit 1
      ∧ mapReducePoolWorkers d = min d.num_workers 2
      ∧ mapReduceChunkSize d = min d.reducer_chunk_size 2 :=
  ⟨rfl, rfl, rfl⟩

/-- C7: over zero vertices no map task ever sends a message, so the consumer's
first `recv` blocks forever: `map_reduce` never reaches its `Ok(Null)` return.
The claim that it returns JSON null describes the clear intent of the
(unreachable) final branch; the code deadlocks instead. -/
theorem C7_zero_vertices_blocks {α : Type} (d : MRDriver) (red : List α → α)
    (fuel : Nat) : mapReduceModel d red [] (fuel + 1) = some MROutcome.stuck := rfl

/-- C5: the six-keyspace batch apply is atomic: an aborted transaction leaves
every keyspace byte-identical to the pre-image, and a committed one applies
every queued insert and remove of every keyspace (the lookup at any key is the
fold of its queued ops over the old value); no partial image is visible. -/
theorem C5_apply_atomicity (b : UberBatch) (fs : FailSpec) (s : SledState) :
    (b.applyT fs s = .error () → visibleAfter b fs s = s)
      ∧ (∀ s2, b.applyT fs s = .ok s2 →
          visibleAfter b fs s = s2 ∧ s2 = b.apply s
            ∧ (∀ k, s2.vertices.get k = opsEffect b.vertices k (s.vertices.get k))
            ∧ (∀ k, s2.edges.get k = opsEffect b.edges k (s.edges.get k))
            ∧ (∀ k, s2.edge_ranges.get k = opsEffect b.edge_ranges k (s.edge_ranges.get k))
            ∧ (∀ k, s2.reversed_edge_ranges.get k
                = opsEffect b.reversed_edge_ranges k (s.reversed_edge_ranges.get k))
            ∧ (∀ k, s2.vertex_properties.get k
                = opsEffect b.vertex_properties k (s.vertex_properties.get k))
            ∧ (∀ k, s2.edge_properties.get k
                = opsEffect b.edge_properties k (s.edge_properties.get k))) := by
  constructor
  · intro h
    simp [visibleAfter, h]
  · intro s2 h
    have hvis : visibleAfter b fs s = s2 := by
      simp [visibleAfter, h]
    refine ⟨hvis, ?_⟩
    rcases fs with ⟨fv, fe, ff, fr, fvp, fep⟩
    cases fv <;> cases fe <;> cases ff <;> cases fr <;> cases fvp <;> cases fep <;>
      simp only [UberBatch.applyT, applyBatchT, if_true, if_false, Bool.false_eq_true,
        bind, Except.bind, pure, Except.pure] at h
    all_goals cases h
    exact ⟨rfl, fun k => get_applyOps _ _ k, fun k => get_applyOps _ _ k,
      fun k => get_applyOps _ _ k, fun k => get_applyOps _ _ k,
      fun k => get_applyOps _ _ k, fun k => get_applyOps _ _ k⟩

/-- C5 witness: a concrete clean commit takes the ok branch and yields the
applied state. -/
theorem C5_apply_atomicity_witness :
    UberBatch.applyT { edges := [BatchOp.insert [1] [2]] } {} SledState.empty
        = Except.ok (UberBatch.apply { edges := [BatchOp.insert [1] [2]] } SledState.empty)
      ∧ (UberBatch.apply { edges := [BatchOp.insert [1] [2]] } SledState.empty)
          = UberBatch.apply { edges := [BatchOp.insert [1] [2]] } SledState.empty := by
  have h : UberBatch.applyT { edges := [BatchOp.insert [1] [2]] } {} SledState.empty
      = Except.ok (UberBatch.apply { edges := [BatchOp.insert [1] [2]] } SledState.empty) := rfl
  exact ⟨h, ((C5_apply_atomicity { edges := [BatchOp.insert [1] [2]] } {}
    SledState.empty).2 _ h).2.1.symm ▸ rfl⟩

/-- C9: applying a batch holding only the mutations of one `EdgeManager::set`
changes at most the edge record at `(o,t,i)`, forward index keys of shape
`(o,t,*,i)` and reverse index keys of shape `(i,t,*,o)`; the vertices, vertex
property and edge property keyspaces are untouched. -/
theorem C9_edgeSet_frame (s : SledState) (o : Nat) (t : List Byte) (i : Nat) (d : Nat) :
    ((EdgeManager.set s UberBatch.empty o t i d).apply s).vertices = s.vertices
      ∧ ((EdgeManager.set s UberBatch.empty o t i d).apply s).vertex_properties
          = s.vertex_properties
      ∧ ((EdgeManager.set s UberBatch.empty o t i d).apply s).edge_properties
          = s.edge_properties
      ∧ (∀ k, k ≠ edgeKey o t i →
          ((EdgeManager.set s UberBatch.empty o t i d).apply s).edges.get k
            = s.edges.get k)
      ∧ (∀ k, (∀ dt, k ≠ edgeRangeKey o t dt i) →
          ((EdgeManager.set s UberBatch.empty o t i d).apply s).edge_ranges.get k
            = s.edge_ranges.get k)
      ∧ (∀ k, (∀ dt, k ≠ edgeRangeKey i t dt o) →
          ((EdgeManager.set s UberBatch.empty o t i d).apply s).reversed_edge_ranges.get k
            = s.reversed_edge_ranges.get k) := by
  rw [edgeSet_eq]
  refine ⟨rfl, rfl, rfl, ?_, ?_, ?_⟩
  · intro k hk
    rw [apply_edges, get_applyOps]
    refine opsEffect_not_mentioned ?_ _
    intro op hop
    simp only [UberBatch.empty] at hop
    simp only [List.nil_append, List.mem_singleton] at hop
    subst hop
    exact fun hh => hk (by simpa [BatchOp.key] using hh.symm)
  · intro k hk
    rw [apply_edge_ranges, get_applyOps]
    refine opsEffect_not_mentioned ?_ _
    intro op hop
    simp only [UberBatch.empty, List.nil_append, List.mem_append] at hop
    rcases hop with hop | hop
    · cases hg : EdgeManager.get s o t i with
      | none => rw [hg] at hop; simp at hop
      | some old =>
        rw [hg] at hop
        simp only [List.mem_singleton] at hop
        subst hop
        exact fun hh => hk old (by simpa [BatchOp.key] using hh.symm)
    · simp only [List.mem_singleton] at hop
      subst hop
      exact fun hh => hk d (by simpa [BatchOp.key] using hh.symm)
  · intro k hk
    rw [apply_reversed_edge_ranges, get_applyOps]
    refine opsEffect_not_mentioned ?_ _
    intro op hop
    simp only [UberBatch.empty, List.nil_append, List.mem_append] at hop
    rcases hop with hop | hop
    · cases hg : EdgeManager.get s o t i with
      | none => rw [hg] at hop; simp at hop
      | some old =>
        rw [hg] at hop
        simp only [List.mem_singleton] at hop
        subst hop
        exact fun hh => hk old (by simpa [BatchOp.key] using hh.symm)
    · simp only [List.mem_singleton] at hop
      subst hop
      exact fun hh => hk d (by simpa [BatchOp.key] using hh.symm)

/-- C9 witness: a concrete out-of-frame key and the property keyspaces are
unchanged by an edge set. -/
theorem C9_edgeSet_frame_witness :
    ((EdgeManager.set SledState.empty UberBatch.empty 0 [7] 1 5).apply
        SledState.empty).vertices = SledState.empty.vertices
      ∧ ((EdgeManager.set SledState.empty UberBatch.empty 0 [7] 1 5).apply
          SledState.empty).edges.get [9] = SledState.empty.edges.get [9]
      ∧ ((EdgeManager.set SledState.empty UberBatch.empty 0 [7] 1 5).apply
          SledState.empty).edge_ranges.get [9] = SledState.empty.edge_ranges.get [9] := by
  have h := C9_edgeSet_frame SledState.empty 0 [7] 1 5
  refine ⟨h.1, h.2.2.2.1 [9] (by decide), h.2.2.2.2.1 [9] ?_⟩
  intro dt hh
  have := congrArg List.length hh
  simp [edgeRangeKey, encType] at this

/-- C10: deleting a vertex id that appears in no record of any keyspace
returns without error (the model's cascade is total: the scans it reads are
empty) and the applied batch leaves all six keyspaces unchanged. -/
theorem C10_delete_missing_vertex_noop (s : SledState) (id : Nat)
    (h1 : s.vertices.get (vertexKey id) = none)
    (h2 : ∀ kv ∈ s.vertex_properties, (encUuid id).isPrefixOf kv.1 = false)
    (h3 : ∀ kv ∈ s.edge_ranges, (encUuid id).isPrefixOf kv.1 = false)
    (h4 : ∀ kv ∈ s.reversed_edge_ranges, (encUuid id).isPrefixOf kv.1 = false)
    (_h5 : ∀ kv ∈ s.edges, ∀ o t i, ValidUuid o → ValidUuid i → kv.1 = edgeKey o t i →
      o ≠ id ∧ i ≠ id)
    (_h6 : ∀ kv ∈ s.edge_properties, ∀ o t i n, ValidUuid o → ValidUuid i →
      kv.1 = edgePropKey o t i n → o ≠ id ∧ i ≠ id) :
    (VertexManager.delete s UberBatch.empty id).apply s = s := by
  have hvp : s.vertex_properties.scanPfx (encUuid id) = [] := Store.scanPfx_eq_nil h2
  have hfwd : s.edge_ranges.scanPfx (encUuid id) = [] := Store.scanPfx_eq_nil h3
  have hrev : s.reversed_edge_ranges.scanPfx (encUuid id) = [] := Store.scanPfx_eq_nil h4
  have hfi : fwdItems s id = [] := by
    simp [fwdItems, EdgeRangeManager.iterate_for_owner, hfwd, takeWhilePfxOk]
  have hri : revItems s id = [] := by
    simp [revItems, EdgeRangeManager.iterate_for_owner, hrev, takeWhilePfxOk]
  have hvr : vpRemoves s id = [] := by
    simp [vpRemoves, VertexPropertyManager.iterate_for_owner, hvp]
  rw [vertexDelete_eq]
  refine SledState.ext_mk ?_ ?_ ?_ ?_ ?_ ?_
  · rw [apply_vertices]
    simp only [UberBatch.empty, List.nil_append]
    show applyOps [BatchOp.remove (vertexKey id)] s.vertices = s.vertices
    show (s.vertices.remove (vertexKey id)) = s.vertices
    exact Store.remove_eq_self_of_get_none h1
  · rw [apply_edges]
    simp only [UberBatch.empty, hfi, hri, List.map_nil, List.nil_append, List.append_nil]
    rfl
  · rw [apply_edge_ranges]
    simp only [UberBatch.empty, hfi, hri, List.map_nil, List.nil_append, List.append_nil]
    rfl
  · rw [apply_reversed_edge_ranges]
    simp only [UberBatch.empty, hfi, hri, List.map_nil, List.nil_append, List.append_nil]
    rfl
  · rw [apply_vertex_properties]
    simp only [UberBatch.empty, hvr, List.nil_append, List.append_nil]
    rfl
  · rw [apply_edge_properties]
    simp only [UberBatch.empty, hfi, hri, List.flatMap_nil, List.nil_append, List.append_nil]
    rfl

/-- C10 witness: deleting an absent vertex from a concrete store with one
unrelated vertex changes nothing. -/
theorem C10_delete_missing_vertex_noop_witness :
    (VertexManager.delete { SledState.empty with
        vertices := [(vertexKey 0, encType [7])] } UberBatch.empty 1).apply
      { SledState.empty with vertices := [(vertexKey 0, encType [7])] }
      = { SledState.empty with vertices := [(vertexKey 0, encType [7])] } := by
  refine C10_delete_missing_vertex_noop _ 1 (by decide) ?_ ?_ ?_ ?_ ?_
  · intro kv hkv
    simp [SledState.empty] at hkv
  · intro kv hkv
    simp [SledState.empty] at hkv
  · intro kv hkv
    simp [SledState.empty] at hkv
  · intro kv hkv
    simp [SledState.empty] at hkv
  · intro kv hkv
    simp [SledState.empty] at hkv

/-- C1 counterexample: enqueue `set(o,t,i,d1)` and `set(o,t,i,d2)` into the
same batch and apply once.  The second `set` reads the live (still unchanged)
edges keyspace, finds no old record, and so deletes nothing: the forward index
entry at `d1 = 0` survives the apply even though `d1 ≠ d2`. -/
theorem C1_counterexample :
    ((EdgeManager.set SledState.empty
          (EdgeManager.set SledState.empty UberBatch.empty 0 [7] 1 0) 0 [7] 1 1).apply
        SledState.empty).edge_ranges.get (edgeRangeKey 0 [7] 0 1) = some []
      ∧ (0 : Nat) ≠ 1 := by
  constructor
  · rfl
  · decide

/-- C1 (amended): when each `set` is applied in its own batch, two successive
sets of the same edge leave the edge record at `d2`, exactly the `d2` pair of
index entries for this edge, and no index entry at `d1` (for `d1 ≠ d2`); this
holds from any starting state. -/
theorem C1_two_sets_separate_batches (s : SledState) (o : Nat) (t : List Byte)
    (i : Nat) (d1 d2 : Nat) (ho : ValidUuid o) (hi : ValidUuid i)
    (hd1 : ValidDT d1) (hd2 : ValidDT d2) (hne : d1 ≠ d2) :
    ((EdgeManager.set ((EdgeManager.set s UberBatch.empty o t i d1).apply s)
        UberBatch.empty o t i d2).apply
      ((EdgeManager.set s UberBatch.empty o t i d1).apply s)).edges.get (edgeKey o t i)
        = some (encDateTime d2)
      ∧ ((EdgeManager.set ((EdgeManager.set s UberBatch.empty o t i d1).apply s)
          UberBatch.empty o t i d2).apply
        ((EdgeManager.set s UberBatch.empty o t i d1).apply s)).edge_ranges.get
          (edgeRangeKey o t d2 i) = some []
      ∧ ((EdgeManager.set ((EdgeManager.set s UberBatch.empty o t i d1).apply s)
          UberBatch.empty o t i d2).apply
        ((EdgeManager.set s UberBatch.empty o t i d1).apply s)).reversed_edge_ranges.get
          (edgeRangeKey i t d2 o) = some []
      ∧ ((EdgeManager.set ((EdgeManager.set s UberBatch.empty o t i d1).apply s)
          UberBatch.empty o t i d2).apply
        ((EdgeManager.set s UberBatch.empty o t i d1).apply s)).edge_ranges.get
          (edgeRangeKey o t d1 i) = none
      ∧ ((EdgeManager.set ((EdgeManager.set s UberBatch.empty o t i d1).apply s)
          UberBatch.empty o t i d2).apply
        ((EdgeManager.set s UberBatch.empty o t i d1).apply s)).reversed_edge_ranges.get
          (edgeRangeKey i t d1 o) = none := by
  set s1 := (EdgeManager.set s UberBatch.empty o t i d1).apply s with hs1
  have hek : s1.edges.get (edgeKey o t i) = some (encDateTime d1) := by
    rw [hs1, edgeSet_eq, apply_edges, get_applyOps]
    simp only [UberBatch.empty, List.nil_append]
    rw [opsEffect_single_insert, if_pos rfl]
  have hget : EdgeManager.get s1 o t i = some d1 := by
    rw [EdgeManager.get, EdgeManager.key, hek]
    simp only [Option.map]
    rw [decodeDateTimeValue_enc hd1]
  have hne12 : edgeRangeKey o t d1 i ≠ edgeRangeKey o t d2 i := by
    intro hh
    exact hne (edgeRangeKey_inj ho hd1 hi ho hd2 hi hh).2.2.1
  have hne12r : edgeRangeKey i t d1 o ≠ edgeRangeKey i t d2 o := by
    intro hh
    exact hne (edgeRangeKey_inj hi hd1 ho hi hd2 ho hh).2.2.1
  refine ⟨?_, ?_, ?_, ?_, ?_⟩
  · rw [edgeSet_eq, apply_edges, get_applyOps]
    simp only [UberBatch.empty, List.nil_append]
    rw [opsEffect_single_insert, if_pos rfl]
  · rw [edgeSet_eq, apply_edge_ranges, get_applyOps, hget]
    simp only [UberBatch.empty, List.nil_append]
    rw [opsEffect_append, opsEffect_single_insert, if_pos rfl]
  · rw [edgeSet_eq, apply_reversed_edge_ranges, get_applyOps, hget]
    simp only [UberBatch.empty, List.nil_append]
    rw [opsEffect_append, opsEffect_single_insert, if_pos rfl]
  · rw [edgeSet_eq, apply_edge_ranges, get_applyOps, hget]
    simp only [UberBatch.empty, List.nil_append]
    rw [opsEffect_append, opsEffect_single_insert, if_neg hne12.symm,
      opsEffect_single_remove, if_pos rfl]
  · rw [edgeSet_eq, apply_reversed_edge_ranges, get_applyOps, hget]
    simp only [UberBatch.empty, List.nil_append]
    rw [opsEffect_append, opsEffect_single_insert, if_neg hne12r.symm,
      opsEffect_single_remove, if_pos rfl]

/-- C1 witness: the amended overwrite property at a concrete edge. -/
theorem C1_two_sets_separate_batches_witness :
    ValidUuid 0 ∧ ValidUuid 1 ∧ ValidDT 0 ∧ ValidDT 1 ∧ (0 : Nat) ≠ 1
      ∧ (((EdgeManager.set ((EdgeManager.set SledState.empty UberBatch.empty 0 [7] 1 0).apply
            SledState.empty) UberBatch.empty 0 [7] 1 1).apply
          ((EdgeManager.set SledState.empty UberBatch.empty 0 [7] 1 0).apply
            SledState.empty)).edge_ranges.get (edgeRangeKey 0 [7] 0 1) = none) := by
  refine ⟨by decide, by decide, by decide, by decide, by decide, ?_⟩
  exact (C1_two_sets_separate_batches SledState.empty 0 [7] 1 0 1 (by decide) (by decide)
    (by decide) (by decide) (by decide)).2.2.2.1

/-! ### Helpers for the invariant proofs -/

theorem applyOps_append (l1 l2 : List BatchOp) (st : Store) :
    applyOps (l1 ++ l2) st = applyOps l2 (applyOps l1 st) := by
  simp [applyOps, List.foldl_append]

theorem Store.WF_applyOp {st : Store} (h : Store.WF st) (op : BatchOp) :
    Store.WF (applyOp st op) := by
  cases op with
  | insert k v => exact Store.WF_insert h k v
  | remove k => exact Store.WF_remove h k

theorem Store.WF_applyOps {st : Store} (h : Store.WF st) (ops : List BatchOp) :
    Store.WF (applyOps ops st) := by
  induction ops generalizing st with
  | nil => exact h
  | cons op rest ih => exact ih (Store.WF_applyOp h op)

theorem mem_applyOps_removes (ks : List (List Byte)) (st : Store)
    (kv : List Byte × List Byte) :
    kv ∈ applyOps (ks.map BatchOp.remove) st ↔ kv ∈ st ∧ kv.1 ∉ ks := by
  induction ks generalizing st with
  | nil => simp [applyOps]
  | cons k rest ih =>
    rw [List.map_cons, show applyOps (BatchOp.remove k :: rest.map BatchOp.remove) st
        = applyOps (rest.map BatchOp.remove) (st.remove k) from rfl, ih,
      Store.mem_remove_iff]
    constructor
    · rintro ⟨⟨h1, h2⟩, h3⟩
      exact ⟨h1, by simp [h2, h3]⟩
    · rintro ⟨h1, h2⟩
      simp only [List.mem_cons, not_or] at h2
      exact ⟨⟨h1, h2.1⟩, h2.2⟩

theorem get_applyOps_removes (ks : List (List Byte)) (st : Store) (k : List Byte) :
    (applyOps (ks.map BatchOp.remove) st).get k = if k ∈ ks then none else st.get k := by
  induction ks generalizing st with
  | nil => simp [applyOps]
  | cons k0 rest ih =>
    rw [List.map_cons, show applyOps (BatchOp.remove k0 :: rest.map BatchOp.remove) st
        = applyOps (rest.map BatchOp.remove) (st.remove k0) from rfl, ih,
      Store.get_remove]
    by_cases hmem : k ∈ rest
    · simp [hmem]
    · by_cases heq : k = k0
      · simp [hmem, heq]
      · simp [hmem, heq]

theorem takeWhile_eq_self_of_all {α : Type} (p : α → Bool) (l : List α)
    (h : ∀ x ∈ l, p x = true) : l.takeWhile p = l := by
  induction l with
  | nil => rfl
  | cons x xs ih =>
    rw [List.takeWhile_cons, if_pos (h x (List.mem_cons_self _ _))]
    rw [ih fun y hy => h y (List.mem_cons_of_mem _ hy)]

theorem takeWhilePfxOk_scanPfx (pfx : List Byte) (st : Store) :
    takeWhilePfxOk pfx (st.scanPfx pfx) = st.scanPfx pfx := by
  refine takeWhile_eq_self_of_all _ _ ?_
  intro kv hkv
  exact (Store.mem_scanPfx_iff.mp hkv).2

theorem encUuid_pfx_eq {v a : Nat} (hv : ValidUuid v) (ha : ValidUuid a)
    {r : List Byte} (h : (encUuid v).isPrefixOf (encUuid a ++ r) = true) : a = v := by
  obtain ⟨r2, hr⟩ := eq_append_of_isPrefixOf h
  have hlen : (encUuid a).length = (encUuid v).length := by simp
  obtain ⟨h1, -⟩ := List.append_inj hr hlen
  exact encUuid_inj ha hv h1

set_option maxHeartbeats 1000000 in
/-- Under the index well-formedness invariant, the owner scan of a range
keyspace yields exactly the decoded entries whose first component is the
owner. -/
theorem iterate_for_owner_mem {F : Store} (hwf : Store.WF F)
    (hkeys : ∀ kv ∈ F, ∃ a t d b2, ValidUuid a ∧ ValidTy t ∧ ValidDT d ∧ ValidUuid b2
      ∧ kv.1 = edgeRangeKey a t d b2 ∧ kv.2 = ([] : List Byte))
    {v : Nat} (hv : ValidUuid v) (it : RangeItem) :
    it ∈ EdgeRangeManager.iterate_for_owner F v ↔
      (it.first = v ∧ ValidTy it.ty ∧ ValidDT it.dt ∧ ValidUuid it.second
        ∧ F.get (edgeRangeKey v it.ty it.dt it.second) = some []) := by
  rw [EdgeRangeManager.iterate_for_owner, takeWhilePfxOk_scanPfx, List.mem_map]
  constructor
  · rintro ⟨kv, hkv, rfl⟩
    obtain ⟨hmem, hpfx⟩ := Store.mem_scanPfx_iff.mp hkv
    obtain ⟨a, t, d, b2, ha, ht, hd, hb, hkey, hval⟩ := hkeys _ hmem
    have hpfx2 : (encUuid v).isPrefixOf
        (encUuid a ++ (encType t ++ (encDateTime d ++ encUuid b2))) = true := by
      rw [hkey] at hpfx
      simpa [edgeRangeKey, List.append_assoc] using hpfx
    have hav : a = v := encUuid_pfx_eq hv ha hpfx2
    have hkv2 : (edgeRangeKey a t d b2, ([] : List Byte)) ∈ F := by
      rw [← hkey, ← hval]
      exact hmem
    rw [hkey, decodeEdgeRangeKey_enc' ha hd hb]
    subst hav
    exact ⟨rfl, ht, hd, hb, Store.get_eq_some_of_mem hwf hkv2⟩
  · rintro ⟨h1, ht, hd, hb, hget⟩
    refine ⟨(edgeRangeKey v it.ty it.dt it.second, []), ?_, ?_⟩
    · rw [Store.mem_scanPfx_iff]
      refine ⟨Store.mem_of_get_eq_some hget, ?_⟩
      rw [show edgeRangeKey v it.ty it.dt it.second
          = encUuid v ++ (encType it.ty ++ (encDateTime it.dt ++ encUuid it.second))
          from by simp [edgeRangeKey, List.append_assoc]]
      exact isPrefixOf_append _ _
    · rw [decodeEdgeRangeKey_enc' hv hd hb]
      cases it
      simp only at h1
      rw [h1]

/-! ### The index symmetry invariant (spec I1/I2) -/

/-- Invariants I1 and I2 over the byte-level state, together with the
well-formedness facts they presuppose: the edges and both range keyspaces are
sled-ordered, every key in them is a well-formed encoding with valid
components, every edge record `(o,t,i) → d` has exactly its forward entry
`(o,t,d,i)` and reverse entry `(i,t,d,o)`, and every range entry is backed by
the matching edge record. -/
structure InvS (s : SledState) : Prop where
  wfV : Store.WF s.vertices
  wfE : Store.WF s.edges
  wfF : Store.WF s.edge_ranges
  wfR : Store.WF s.reversed_edge_ranges
  wfVP : Store.WF s.vertex_properties
  wfEP : Store.WF s.edge_properties
  edgesWF : ∀ kv ∈ s.edges, ∃ o t i d, ValidUuid o ∧ ValidTy t ∧ ValidUuid i ∧ ValidDT d
    ∧ kv.1 = edgeKey o t i ∧ kv.2 = encDateTime d
  fwdWF : ∀ kv ∈ s.edge_ranges, ∃ a t d b2, ValidUuid a ∧ ValidTy t ∧ ValidDT d
    ∧ ValidUuid b2 ∧ kv.1 = edgeRangeKey a t d b2 ∧ kv.2 = ([] : List Byte)
  revWF : ∀ kv ∈ s.reversed_edge_ranges, ∃ a t d b2, ValidUuid a ∧ ValidTy t ∧ ValidDT d
    ∧ ValidUuid b2 ∧ kv.1 = edgeRangeKey a t d b2 ∧ kv.2 = ([] : List Byte)
  fwdOfEdge : ∀ o t i d, ValidUuid o → ValidTy t → ValidUuid i → ValidDT d →
    s.edges.get (edgeKey o t i) = some (encDateTime d) →
    s.edge_ranges.get (edgeRangeKey o t d i) = some []
  revOfEdge : ∀ o t i d, ValidUuid o → ValidTy t → ValidUuid i → ValidDT d →
    s.edges.get (edgeKey o t i) = some (encDateTime d) →
    s.reversed_edge_ranges.get (edgeRangeKey i t d o) = some []
  edgeOfFwd : ∀ a t d b2, ValidUuid a → ValidTy t → ValidDT d → ValidUuid b2 →
    s.edge_ranges.get (edgeRangeKey a t d b2) = some [] →
    s.edges.get (edgeKey a t b2) = some (encDateTime d)
  edgeOfRev : ∀ a t d b2, ValidUuid a → ValidTy t → ValidDT d → ValidUuid b2 →
    s.reversed_edge_ranges.get (edgeRangeKey a t d b2) = some [] →
    s.edges.get (edgeKey b2 t a) = some (encDateTime d)

theorem InvS_empty : InvS SledState.empty := by
  refine ⟨List.Pairwise.nil, List.Pairwise.nil, List.Pairwise.nil, List.Pairwise.nil,
    List.Pairwise.nil, List.Pairwise.nil, ?_, ?_, ?_, ?_, ?_, ?_, ?_⟩
  · intro kv hkv
    simp [SledState.empty] at hkv
  · intro kv hkv
    simp [SledState.empty] at hkv
  · intro kv hkv
    simp [SledState.empty] at hkv
  · intro o t i d _ _ _ _ hget
    simp [SledState.empty, Store.get] at hget
  · intro o t i d _ _ _ _ hget
    simp [SledState.empty, Store.get] at hget
  · intro a t d b2 _ _ _ _ hget
    simp [SledState.empty, Store.get] at hget
  · intro a t d b2 _ _ _ _ hget
    simp [SledState.empty, Store.get] at hget

theorem InvS.get_edges_decomp {s : SledState} (h : InvS s) {o : Nat} {t : List Byte}
    {i : Nat} {val : List Byte} (ho : ValidUuid o) (hi : ValidUuid i)
    (hget : s.edges.get (edgeKey o t i) = some val) :
    ∃ d, ValidDT d ∧ val = encDateTime d ∧ ValidTy t := by
  have hmem := Store.mem_of_get_eq_some hget
  obtain ⟨o', t', i', d, ho', ht', hi', hd, hkey, hval⟩ := h.edgesWF _ hmem
  obtain ⟨h1, h2, h3⟩ := edgeKey_inj ho hi ho' hi' hkey
  subst h2
  exact ⟨d, hd, hval, ht'⟩

theorem InvS.get_fwd_decomp {s : SledState} (h : InvS s) {a : Nat} {t : List Byte}
    {d b2 : Nat} {val : List Byte} (ha : ValidUuid a) (hd : ValidDT d)
    (hb : ValidUuid b2) (hget : s.edge_ranges.get (edgeRangeKey a t d b2) = some val) :
    val = [] ∧ ValidTy t := by
  have hmem := Store.mem_of_get_eq_some hget
  obtain ⟨a', t', d', b2', ha', ht', hd', hb', hkey, hval⟩ := h.fwdWF _ hmem
  obtain ⟨h1, h2, h3, h4⟩ := edgeRangeKey_inj ha hd hb ha' hd' hb' hkey
  subst h2
  exact ⟨hval, ht'⟩

theorem InvS.get_rev_decomp {s : SledState} (h : InvS s) {a : Nat} {t : List Byte}
    {d b2 : Nat} {val : List Byte} (ha : ValidUuid a) (hd : ValidDT d)
    (hb : ValidUuid b2)
    (hget : s.reversed_edge_ranges.get (edgeRangeKey a t d b2) = some val) :
    val = [] ∧ ValidTy t := by
  have hmem := Store.mem_of_get_eq_some hget
  obtain ⟨a', t', d', b2', ha', ht', hd', hb', hkey, hval⟩ := h.revWF _ hmem
  obtain ⟨h1, h2, h3, h4⟩ := edgeRangeKey_inj ha hd hb ha' hd' hb' hkey
  subst h2
  exact ⟨hval, ht'⟩

theorem InvS_create {s : SledState} (h : InvS s) (id : Nat) (t : List Byte) :
    InvS (VertexManager.create s id t) := by
  obtain ⟨wfV, wfE, wfF, wfR, wfVP, wfEP, e1, e2, e3, f1, f2, f3, f4⟩ := h
  exact ⟨Store.WF_insert wfV _ _, wfE, wfF, wfR, wfVP, wfEP, e1, e2, e3, f1, f2, f3, f4⟩

theorem InvS_set_aux_none {s : SledState} (h : InvS s) {o : Nat} {t : List Byte}
    {i : Nat} {d : Nat} (ho : ValidUuid o) (ht : ValidTy t) (hi : ValidUuid i)
    (hd : ValidDT d) (hge : s.edges.get (edgeKey o t i) = none) :
    InvS { s with
      edges := s.edges.insert (edgeKey o t i) (encDateTime d),
      edge_ranges := s.edge_ranges.insert (edgeRangeKey o t d i) [],
      reversed_edge_ranges :=
        s.reversed_edge_ranges.insert (edgeRangeKey i t d o) [] } := by
  refine ⟨h.wfV, Store.WF_insert h.wfE _ _, Store.WF_insert h.wfF _ _,
    Store.WF_insert h.wfR _ _, h.wfVP, h.wfEP, ?_, ?_, ?_, ?_, ?_, ?_, ?_⟩
  · intro kv hkv
    rcases Store.mem_insert hkv with rfl | hkv
    · exact ⟨o, t, i, d, ho, ht, hi, hd, rfl, rfl⟩
    · exact h.edgesWF kv hkv
  · intro kv hkv
    rcases Store.mem_insert hkv with rfl | hkv
    · exact ⟨o, t, d, i, ho, ht, hd, hi, rfl, rfl⟩
    · exact h.fwdWF kv hkv
  · intro kv hkv
    rcases Store.mem_insert hkv with rfl | hkv
    · exact ⟨i, t, d, o, hi, ht, hd, ho, rfl, rfl⟩
    · exact h.revWF kv hkv
  · intro o' t' i' d' ho' ht' hi' hd' hget'
    by_cases hk : edgeKey o' t' i' = edgeKey o t i
    · obtain ⟨rfl, rfl, rfl⟩ := edgeKey_inj ho' hi' ho hi hk
      rw [Store.get_insert_self] at hget'
      obtain rfl := encDateTime_inj hd hd' (Option.some.inj hget')
      exact Store.get_insert_self _ _ _
    · rw [Store.get_insert_ne _ _ hk] at hget'
      have hF := h.fwdOfEdge o' t' i' d' ho' ht' hi' hd' hget'
      by_cases hk2 : edgeRangeKey o' t' d' i' = edgeRangeKey o t d i
      · rw [hk2]
        exact Store.get_insert_self _ _ _
      · rw [Store.get_insert_ne _ _ hk2]
        exact hF
  · intro o' t' i' d' ho' ht' hi' hd' hget'
    by_cases hk : edgeKey o' t' i' = edgeKey o t i
    · obtain ⟨rfl, rfl, rfl⟩ := edgeKey_inj ho' hi' ho hi hk
      rw [Store.get_insert_self] at hget'
      obtain rfl := encDateTime_inj hd hd' (Option.some.inj hget')
      exact Store.get_insert_self _ _ _
    · rw [Store.get_insert_ne _ _ hk] at hget'
      have hR := h.revOfEdge o' t' i' d' ho' ht' hi' hd' hget'
      by_cases hk2 : edgeRangeKey i' t' d' o' = edgeRangeKey i t d o
      · rw [hk2]
        exact Store.get_insert_self _ _ _
      · rw [Store.get_insert_ne _ _ hk2]
        exact hR
  · intro a t' d' b2 ha ht' hd' hb hget'
    by_cases hk2 : edgeRangeKey a t' d' b2 = edgeRangeKey o t d i
    · obtain ⟨rfl, rfl, rfl, rfl⟩ := edgeRangeKey_inj ha hd' hb ho hd hi hk2
      exact Store.get_insert_self _ _ _
    · rw [Store.get_insert_ne _ _ hk2] at hget'
      have hE := h.edgeOfFwd a t' d' b2 ha ht' hd' hb hget'
      by_cases hk : edgeKey a t' b2 = edgeKey o t i
      · rw [hk] at hE
        rw [hge] at hE
        exact absurd hE (by simp)
      · rw [Store.get_insert_ne _ _ hk]
        exact hE
  · intro a t' d' b2 ha ht' hd' hb hget'
    by_cases hk2 : edgeRangeKey a t' d' b2 = edgeRangeKey i t d o
    · obtain ⟨rfl, rfl, rfl, rfl⟩ := edgeRangeKey_inj ha hd' hb hi hd ho hk2
      exact Store.get_insert_self _ _ _
    · rw [Store.get_insert_ne _ _ hk2] at hget'
      have hE := h.edgeOfRev a t' d' b2 ha ht' hd' hb hget'
      by_cases hk : edgeKey b2 t' a = edgeKey o t i
      · rw [hk] at hE
        rw [hge] at hE
        exact absurd hE (by simp)
      · rw [Store.get_insert_ne _ _ hk]
        exact hE

theorem InvS_set_aux_some {s : SledState} (h : InvS s) {o : Nat} {t : List Byte}
    {i : Nat} {d d0 : Nat} (ho : ValidUuid o) (ht : ValidTy t) (hi : ValidUuid i)
    (hd : ValidDT d) (hd0 : ValidDT d0)
    (hge : s.edges.get (edgeKey o t i) = some (encDateTime d0)) :
    InvS { s with
      edges := s.edges.insert (edgeKey o t i) (encDateTime d),
      edge_ranges := (s.edge_ranges.remove (edgeRangeKey o t d0 i)).insert
        (edgeRangeKey o t d i) [],
      reversed_edge_ranges := (s.reversed_edge_ranges.remove
        (edgeRangeKey i t d0 o)).insert (edgeRangeKey i t d o) [] } := by
  refine ⟨h.wfV, Store.WF_insert h.wfE _ _,
    Store.WF_insert (Store.WF_remove h.wfF _) _ _,
    Store.WF_insert (Store.WF_remove h.wfR _) _ _, h.wfVP, h.wfEP,
    ?_, ?_, ?_, ?_, ?_, ?_, ?_⟩
  · intro kv hkv
    rcases Store.mem_insert hkv with rfl | hkv
    · exact ⟨o, t, i, d, ho, ht, hi, hd, rfl, rfl⟩
    · exact h.edgesWF kv hkv
  · intro kv hkv
    rcases Store.mem_insert hkv with rfl | hkv
    · exact ⟨o, t, d, i, ho, ht, hd, hi, rfl, rfl⟩
    · exact h.fwdWF kv (Store.mem_remove_iff.mp hkv).1
  · intro kv hkv
    rcases Store.mem_insert hkv with rfl | hkv
    · exact ⟨i, t, d, o, hi, ht, hd, ho, rfl, rfl⟩
    · exact h.revWF kv (Store.mem_remove_iff.mp hkv).1
  · intro o' t' i' d' ho' ht' hi' hd' hget'
    by_cases hk : edgeKey o' t' i' = edgeKey o t i
    · obtain ⟨rfl, rfl, rfl⟩ := edgeKey_inj ho' hi' ho hi hk
      rw [Store.get_insert_self] at hget'
      obtain rfl := encDateTime_inj hd hd' (Option.some.inj hget')
      exact Store.get_insert_self _ _ _
    · rw [Store.get_insert_ne _ _ hk] at hget'
      have hF := h.fwdOfEdge o' t' i' d' ho' ht' hi' hd' hget'
      by_cases hk2 : edgeRangeKey o' t' d' i' = edgeRangeKey o t d i
      · rw [hk2]
        exact Store.get_insert_self _ _ _
      · rw [Store.get_insert_ne _ _ hk2, Store.get_remove]
        rw [if_neg ?hne]
        case hne =>
          intro hh
          obtain ⟨rfl, rfl, -, rfl⟩ := edgeRangeKey_inj ho' hd' hi' ho hd0 hi hh
          exact hk rfl
        exact hF
  · intro o' t' i' d' ho' ht' hi' hd' hget'
    by_cases hk : edgeKey o' t' i' = edgeKey o t i
    · obtain ⟨rfl, rfl, rfl⟩ := edgeKey_inj ho' hi' ho hi hk
      rw [Store.get_insert_self] at hget'
      obtain rfl := encDateTime_inj hd hd' (Option.some.inj hget')
      exact Store.get_insert_self _ _ _
    · rw [Store.get_insert_ne _ _ hk] at hget'
      have hR := h.revOfEdge o' t' i' d' ho' ht' hi' hd' hget'
      by_cases hk2 : edgeRangeKey i' t' d' o' = edgeRangeKey i t d o
      · rw [hk2]
        exact Store.get_insert_self _ _ _
      · rw [Store.get_insert_ne _ _ hk2, Store.get_remove]
        rw [if_neg ?hne]
        case hne =>
          intro hh
          obtain ⟨rfl, rfl, -, rfl⟩ := edgeRangeKey_inj hi' hd' ho' hi hd0 ho hh
          exact hk rfl
        exact hR
  · intro a t' d' b2 ha ht' hd' hb hget'
    by_cases hk2 : edgeRangeKey a t' d' b2 = edgeRangeKey o t d i
    · obtain ⟨rfl, rfl, rfl, rfl⟩ := edgeRangeKey_inj ha hd' hb ho hd hi hk2
      exact Store.get_insert_self _ _ _
    · rw [Store.get_insert_ne _ _ hk2, Store.get_remove] at hget'
      by_cases hk3 : edgeRangeKey a t' d' b2 = edgeRangeKey o t d0 i
      · rw [if_pos hk3] at hget'
        exact absurd hget' (by simp)
      · rw [if_neg hk3] at hget'
        have hE := h.edgeOfFwd a t' d' b2 ha ht' hd' hb hget'
        by_cases hk : edgeKey a t' b2 = edgeKey o t i
        · obtain ⟨rfl, rfl, rfl⟩ := edgeKey_inj ha hb ho hi hk
          rw [hge] at hE
          obtain rfl := encDateTime_inj hd0 hd' (Option.some.inj hE)
          exact absurd rfl hk3
        · rw [Store.get_insert_ne _ _ hk]
          exact hE
  · intro a t' d' b2 ha ht' hd' hb hget'
    by_cases hk2 : edgeRangeKey a t' d' b2 = edgeRangeKey i t d o
    · obtain ⟨rfl, rfl, rfl, rfl⟩ := edgeRangeKey_inj ha hd' hb hi hd ho hk2
      exact Store.get_insert_self _ _ _
    · rw [Store.get_insert_ne _ _ hk2, Store.get_remove] at hget'
      by_cases hk3 : edgeRangeKey a t' d' b2 = edgeRangeKey i t d0 o
      · rw [if_pos hk3] at hget'
        exact absurd hget' (by simp)
      · rw [if_neg hk3] at hget'
        have hE := h.edgeOfRev a t' d' b2 ha ht' hd' hb hget'
        by_cases hk : edgeKey b2 t' a = edgeKey o t i
        · obtain ⟨rfl, rfl, rfl⟩ := edgeKey_inj hb ha ho hi hk
          rw [hge] at hE
          obtain rfl := encDateTime_inj hd0 hd' (Option.some.inj hE)
          exact absurd rfl hk3
        · rw [Store.get_insert_ne _ _ hk]
          exact hE

theorem InvS_setEdge {s : SledState} (h : InvS s) {o : Nat} {t : List Byte} {i : Nat}
    {d : Nat} (ho : ValidUuid o) (ht : ValidTy t) (hi : ValidUuid i) (hd : ValidDT d) :
    InvS ((EdgeManager.set s UberBatch.empty o t i d).apply s) := by
  cases hge : s.edges.get (edgeKey o t i) with
  | none =>
    have hg : EdgeManager.get s o t i = none := by
      rw [EdgeManager.get, EdgeManager.key, hge]
      rfl
    have hpost : (EdgeManager.set s UberBatch.empty o t i d).apply s
        = { s with
            edges := s.edges.insert (edgeKey o t i) (encDateTime d),
            edge_ranges := s.edge_ranges.insert (edgeRangeKey o t d i) [],
            reversed_edge_ranges :=
              s.reversed_edge_ranges.insert (edgeRangeKey i t d o) [] } := by
      rw [edgeSet_eq]
      refine SledState.ext_mk ?_ ?_ ?_ ?_ ?_ ?_ <;>
        simp [hg, UberBatch.empty, applyOps, applyOp]
    rw [hpost]
    exact InvS_set_aux_none h ho ht hi hd hge
  | some val =>
    obtain ⟨d0, hd0, rfl, -⟩ := h.get_edges_decomp ho hi hge
    have hg : EdgeManager.get s o t i = some d0 := by
      rw [EdgeManager.get, EdgeManager.key, hge]
      simp only [Option.map]
      rw [decodeDateTimeValue_enc hd0]
    have hpost : (EdgeManager.set s UberBatch.empty o t i d).apply s
        = { s with
            edges := s.edges.insert (edgeKey o t i) (encDateTime d),
            edge_ranges := (s.edge_ranges.remove (edgeRangeKey o t d0 i)).insert
              (edgeRangeKey o t d i) [],
            reversed_edge_ranges := (s.reversed_edge_ranges.remove
              (edgeRangeKey i t d0 o)).insert (edgeRangeKey i t d o) [] } := by
      rw [edgeSet_eq]
      refine SledState.ext_mk ?_ ?_ ?_ ?_ ?_ ?_ <;>
        simp [hg, UberBatch.empty, applyOps, applyOp]
    rw [hpost]
    exact InvS_set_aux_some h ho ht hi hd hd0 hge

theorem InvS_del_aux {s : SledState} (h : InvS s) {o : Nat} {t : List Byte}
    {i : Nat} {dcur : Nat} (ho : ValidUuid o) (ht : ValidTy t) (hi : ValidUuid i)
    (hdc : ValidDT dcur)
    (hge : s.edges.get (edgeKey o t i) = some (encDateTime dcur)) :
    InvS { s with
      edges := s.edges.remove (edgeKey o t i),
      edge_ranges := s.edge_ranges.remove (edgeRangeKey o t dcur i),
      reversed_edge_ranges :=
        s.reversed_edge_ranges.remove (edgeRangeKey i t dcur o),
      edge_properties := applyOps (epRemoves s o t i) s.edge_properties } := by
  refine ⟨h.wfV, Store.WF_remove h.wfE _, Store.WF_remove h.wfF _,
    Store.WF_remove h.wfR _, h.wfVP, Store.WF_applyOps h.wfEP _,
    ?_, ?_, ?_, ?_, ?_, ?_, ?_⟩
  · intro kv hkv
    exact h.edgesWF kv (Store.mem_remove_iff.mp hkv).1
  · intro kv hkv
    exact h.fwdWF kv (Store.mem_remove_iff.mp hkv).1
  · intro kv hkv
    exact h.revWF kv (Store.mem_remove_iff.mp hkv).1
  · intro o' t' i' d' ho' ht' hi' hd' hget'
    rw [Store.get_remove] at hget'
    by_cases hk : edgeKey o' t' i' = edgeKey o t i
    · rw [if_pos hk] at hget'
      exact absurd hget' (by simp)
    · rw [if_neg hk] at hget'
      have hF := h.fwdOfEdge o' t' i' d' ho' ht' hi' hd' hget'
      rw [Store.get_remove, if_neg ?hne]
      case hne =>
        intro hh
        obtain ⟨rfl, rfl, rfl, rfl⟩ := edgeRangeKey_inj ho' hd' hi' ho hdc hi hh
        exact hk rfl
      exact hF
  · intro o' t' i' d' ho' ht' hi' hd' hget'
    rw [Store.get_remove] at hget'
    by_cases hk : edgeKey o' t' i' = edgeKey o t i
    · rw [if_pos hk] at hget'
      exact absurd hget' (by simp)
    · rw [if_neg hk] at hget'
      have hR := h.revOfEdge o' t' i' d' ho' ht' hi' hd' hget'
      rw [Store.get_remove, if_neg ?hne]
      case hne =>
        intro hh
        obtain ⟨rfl, rfl, rfl, rfl⟩ := edgeRangeKey_inj hi' hd' ho' hi hdc ho hh
        exact hk rfl
      exact hR
  · intro a t' d' b2 ha ht' hd' hb hget'
    rw [Store.get_remove] at hget'
    by_cases hk2 : edgeRangeKey a t' d' b2 = edgeRangeKey o t dcur i
    · rw [if_pos hk2] at hget'
      exact absurd hget' (by simp)
    · rw [if_neg hk2] at hget'
      have hE := h.edgeOfFwd a t' d' b2 ha ht' hd' hb hget'
      rw [Store.get_remove, if_neg ?hne]
      case hne =>
        intro hh
        obtain ⟨rfl, rfl, rfl⟩ := edgeKey_inj ha hb ho hi hh
        rw [hge] at hE
        obtain rfl := encDateTime_inj hdc hd' (Option.some.inj hE)
        exact hk2 rfl
      exact hE
  · intro a t' d' b2 ha ht' hd' hb hget'
    rw [Store.get_remove] at hget'
    by_cases hk2 : edgeRangeKey a t' d' b2 = edgeRangeKey i t dcur o
    · rw [if_pos hk2] at hget'
      exact absurd hget' (by simp)
    · rw [if_neg hk2] at hget'
      have hE := h.edgeOfRev a t' d' b2 ha ht' hd' hb hget'
      rw [Store.get_remove, if_neg ?hne]
      case hne =>
        intro hh
        obtain ⟨rfl, rfl, rfl⟩ := edgeKey_inj hb ha ho hi hh
        rw [hge] at hE
        obtain rfl := encDateTime_inj hdc hd' (Option.some.inj hE)
        exact hk2 rfl
      exact hE

theorem InvS_delEdge {s : SledState} (h : InvS s) {o : Nat} {t : List Byte} {i : Nat}
    {dcur : Nat} (ho : ValidUuid o) (ht : ValidTy t) (hi : ValidUuid i)
    (hg : EdgeManager.get s o t i = some dcur) :
    InvS ((EdgeManager.delete s UberBatch.empty o t i dcur).apply s) := by
  obtain ⟨val, hge, hdec⟩ : ∃ val, s.edges.get (edgeKey o t i) = some val
      ∧ decodeDateTimeValue val = dcur := by
    rw [EdgeManager.get, EdgeManager.key] at hg
    cases hval : s.edges.get (edgeKey o t i) with
    | none => rw [hval] at hg; exact absurd hg (by simp)
    | some val =>
      rw [hval] at hg
      simp only [Option.map] at hg
      exact ⟨val, rfl, Option.some.inj hg⟩
  obtain ⟨d0, hd0, rfl, -⟩ := h.get_edges_decomp ho hi hge
  rw [decodeDateTimeValue_enc hd0] at hdec
  subst hdec
  have hpost : (EdgeManager.delete s UberBatch.empty o t i d0).apply s
      = { s with
          edges := s.edges.remove (edgeKey o t i),
          edge_ranges := s.edge_ranges.remove (edgeRangeKey o t d0 i),
          reversed_edge_ranges :=
            s.reversed_edge_ranges.remove (edgeRangeKey i t d0 o),
          edge_properties := applyOps (epRemoves s o t i) s.edge_properties } := by
    rw [edgeDelete_eq]
    refine SledState.ext_mk ?_ ?_ ?_ ?_ ?_ ?_ <;>
      simp [UberBatch.empty, applyOps, applyOp]
  rw [hpost]
  exact InvS_del_aux h ho ht hi hd0 hge

theorem fwdItems_mem {s : SledState} (h : InvS s) {v : Nat} (hv : ValidUuid v)
    (it : RangeItem) :
    it ∈ fwdItems s v ↔ (it.first = v ∧ ValidTy it.ty ∧ ValidDT it.dt
      ∧ ValidUuid it.second
      ∧ s.edge_ranges.get (edgeRangeKey v it.ty it.dt it.second) = some []) := by
  rw [fwdItems]
  exact iterate_for_owner_mem h.wfF h.fwdWF hv it

theorem revItems_mem {s : SledState} (h : InvS s) {v : Nat} (hv : ValidUuid v)
    (it : RangeItem) :
    it ∈ revItems s v ↔ (it.first = v ∧ ValidTy it.ty ∧ ValidDT it.dt
      ∧ ValidUuid it.second
      ∧ s.reversed_edge_ranges.get (edgeRangeKey v it.ty it.dt it.second) = some []) := by
  rw [revItems]
  exact iterate_for_owner_mem h.wfR h.revWF hv it

theorem allRemoves_append {l1 l2 : List BatchOp} (h1 : AllRemoves l1)
    (h2 : AllRemoves l2) : AllRemoves (l1 ++ l2) := by
  intro op hop
  rcases List.mem_append.mp hop with hop | hop
  · exact h1 op hop
  · exact h2 op hop

theorem allRemoves_map_remove {α : Type} (f : α → List Byte) (l : List α) :
    AllRemoves (l.map fun x => BatchOp.remove (f x)) := by
  intro op hop
  obtain ⟨x, -, rfl⟩ := List.mem_map.mp hop
  exact ⟨f x, rfl⟩

theorem allRemoves_flatMap {α : Type} (g : α → List BatchOp) (l : List α)
    (h : ∀ x ∈ l, AllRemoves (g x)) : AllRemoves (l.flatMap g) := by
  intro op hop
  obtain ⟨x, hx, hop⟩ := List.mem_flatMap.mp hop
  exact h x hx op hop

theorem allRemoves_epRemoves (s : SledState) (o : Nat) (t : List Byte) (i : Nat) :
    AllRemoves (epRemoves s o t i) := allRemoves_map_remove _ _

theorem allRemoves_vpRemoves (s : SledState) (v : Nat) :
    AllRemoves (vpRemoves s v) := allRemoves_map_remove _ _

theorem mem_applyOps_of_allRemoves {ops : List BatchOp} {st : Store}
    {kv : List Byte × List Byte} (hall : AllRemoves ops)
    (h : kv ∈ applyOps ops st) : kv ∈ st := by
  induction ops generalizing st with
  | nil => exact h
  | cons op rest ih =>
    obtain ⟨k, rfl⟩ := hall op (List.mem_cons_self _ _)
    have hrest : AllRemoves rest := fun o ho => hall o (List.mem_cons_of_mem _ ho)
    have := ih hrest (by exact h)
    exact (Store.mem_remove_iff.mp this).1

theorem mem_map_remove_iff {α : Type} (f : α → List Byte) (l : List α)
    (k : List Byte) :
    BatchOp.remove k ∈ l.map (fun x => BatchOp.remove (f x)) ↔ ∃ x ∈ l, f x = k := by
  simp [List.mem_map]

/-- The edge-record removes the vertex cascade enqueues. -/
def vdelOpsE (s : SledState) (v : Nat) : List BatchOp :=
  (fwdItems s v).map (fun it => BatchOp.remove (edgeKey it.first it.ty it.second))
    ++ (revItems s v).map (fun it => BatchOp.remove (edgeKey it.second it.ty it.first))

/-- The forward-index removes the vertex cascade enqueues. -/
def vdelOpsF (s : SledState) (v : Nat) : List BatchOp :=
  (fwdItems s v).map (fun it =>
      BatchOp.remove (edgeRangeKey it.first it.ty it.dt it.second))
    ++ (revItems s v).map (fun it =>
      BatchOp.remove (edgeRangeKey it.second it.ty it.dt it.first))

/-- The reverse-index removes the vertex cascade enqueues. -/
def vdelOpsR (s : SledState) (v : Nat) : List BatchOp :=
  (fwdItems s v).map (fun it =>
      BatchOp.remove (edgeRangeKey it.second it.ty it.dt it.first))
    ++ (revItems s v).map (fun it =>
      BatchOp.remove (edgeRangeKey it.first it.ty it.dt it.second))

/-- The edge-property removes the vertex cascade enqueues. -/
def vdelOpsEP (s : SledState) (v : Nat) : List BatchOp :=
  (fwdItems s v).flatMap (fun it => epRemoves s it.first it.ty it.second)
    ++ (revItems s v).flatMap (fun it => epRemoves s it.second it.ty it.first)

theorem vdel_batch_vertices (s : SledState) (v : Nat) :
    (VertexManager.delete s UberBatch.empty v).vertices
      = [BatchOp.remove (vertexKey v)] := by
  rw [vertexDelete_eq]
  simp [UberBatch.empty, VertexManager.key]

theorem vdel_batch_vp (s : SledState) (v : Nat) :
    (VertexManager.delete s UberBatch.empty v).vertex_properties = vpRemoves s v := by
  rw [vertexDelete_eq]
  simp [UberBatch.empty]

theorem vdel_batch_edges (s : SledState) (v : Nat) :
    (VertexManager.delete s UberBatch.empty v).edges = vdelOpsE s v := by
  rw [vertexDelete_eq, vdelOpsE]
  simp [UberBatch.empty]

theorem vdel_batch_F (s : SledState) (v : Nat) :
    (VertexManager.delete s UberBatch.empty v).edge_ranges = vdelOpsF s v := by
  rw [vertexDelete_eq, vdelOpsF]
  simp [UberBatch.empty]

theorem vdel_batch_R (s : SledState) (v : Nat) :
    (VertexManager.delete s UberBatch.empty v).reversed_edge_ranges = vdelOpsR s v := by
  rw [vertexDelete_eq, vdelOpsR]
  simp [UberBatch.empty]

theorem vdel_batch_ep (s : SledState) (v : Nat) :
    (VertexManager.delete s UberBatch.empty v).edge_properties = vdelOpsEP s v := by
  rw [vertexDelete_eq, vdelOpsEP]
  simp [UberBatch.empty]

theorem allRemoves_vdelOpsE (s : SledState) (v : Nat) : AllRemoves (vdelOpsE s v) :=
  allRemoves_append (allRemoves_map_remove _ _) (allRemoves_map_remove _ _)

theorem allRemoves_vdelOpsF (s : SledState) (v : Nat) : AllRemoves (vdelOpsF s v) :=
  allRemoves_append (allRemoves_map_remove _ _) (allRemoves_map_remove _ _)

theorem allRemoves_vdelOpsR (s : SledState) (v : Nat) : AllRemoves (vdelOpsR s v) :=
  allRemoves_append (allRemoves_map_remove _ _) (allRemoves_map_remove _ _)

theorem allRemoves_vdelOpsEP (s : SledState) (v : Nat) : AllRemoves (vdelOpsEP s v) :=
  allRemoves_append
    (allRemoves_flatMap _ _ fun x _ => allRemoves_epRemoves s x.first x.ty x.second)
    (allRemoves_flatMap _ _ fun x _ => allRemoves_epRemoves s x.second x.ty x.first)

theorem InvS_delVertex {s : SledState} (h : InvS s) {v : Nat} (hv : ValidUuid v) :
    InvS ((VertexManager.delete s UberBatch.empty v).apply s) := by
  have hallE := allRemoves_vdelOpsE s v
  have hallF := allRemoves_vdelOpsF s v
  have hallR := allRemoves_vdelOpsR s v
  have hE : ((VertexManager.delete s UberBatch.empty v).apply s).edges
      = applyOps (vdelOpsE s v) s.edges := by
    rw [apply_edges, vdel_batch_edges]
  have hF : ((VertexManager.delete s UberBatch.empty v).apply s).edge_ranges
      = applyOps (vdelOpsF s v) s.edge_ranges := by
    rw [apply_edge_ranges, vdel_batch_F]
  have hR : ((VertexManager.delete s UberBatch.empty v).apply s).reversed_edge_ranges
      = applyOps (vdelOpsR s v) s.reversed_edge_ranges := by
    rw [apply_reversed_edge_ranges, vdel_batch_R]
  have hV : ((VertexManager.delete s UberBatch.empty v).apply s).vertices
      = applyOps [BatchOp.remove (vertexKey v)] s.vertices := by
    rw [apply_vertices, vdel_batch_vertices]
  have hVP : ((VertexManager.delete s UberBatch.empty v).apply s).vertex_properties
      = applyOps (vpRemoves s v) s.vertex_properties := by
    rw [apply_vertex_properties, vdel_batch_vp]
  have hEP : ((VertexManager.delete s UberBatch.empty v).apply s).edge_properties
      = applyOps (vdelOpsEP s v) s.edge_properties := by
    rw [apply_edge_properties, vdel_batch_ep]
  refine ⟨?_, ?_, ?_, ?_, ?_, ?_, ?_, ?_, ?_, ?_, ?_, ?_, ?_⟩
  · rw [hV]
    exact Store.WF_applyOps h.wfV _
  · rw [hE]
    exact Store.WF_applyOps h.wfE _
  · rw [hF]
    exact Store.WF_applyOps h.wfF _
  · rw [hR]
    exact Store.WF_applyOps h.wfR _
  · rw [hVP]
    exact Store.WF_applyOps h.wfVP _
  · rw [hEP]
    exact Store.WF_applyOps h.wfEP _
  · intro kv hkv
    rw [hE] at hkv
    exact h.edgesWF kv (mem_applyOps_of_allRemoves hallE hkv)
  · intro kv hkv
    rw [hF] at hkv
    exact h.fwdWF kv (mem_applyOps_of_allRemoves hallF hkv)
  · intro kv hkv
    rw [hR] at hkv
    exact h.revWF kv (mem_applyOps_of_allRemoves hallR hkv)
  · intro o' t' i' d' ho' ht' hi' hd' hget'
    rw [hE, get_applyOps] at hget'
    by_cases hmem : BatchOp.remove (edgeKey o' t' i') ∈ vdelOpsE s v
    · rw [opsEffect_allRemoves_mem hallE hmem] at hget'
      exact absurd hget' (by simp)
    · rw [opsEffect_allRemoves_not_mem hallE hmem] at hget'
      have hF0 := h.fwdOfEdge o' t' i' d' ho' ht' hi' hd' hget'
      have hR0 := h.revOfEdge o' t' i' d' ho' ht' hi' hd' hget'
      have hov : o' ≠ v := by
        intro he
        apply hmem
        rw [vdelOpsE]
        refine List.mem_append.mpr (Or.inl ?_)
        rw [mem_map_remove_iff]
        refine ⟨⟨v, t', d', i'⟩, ?_, ?_⟩
        · rw [fwdItems_mem h hv]
          refine ⟨rfl, ht', hd', hi', ?_⟩
          rw [← he]
          exact hF0
        · simp only
          rw [he]
      have hiv : i' ≠ v := by
        intro he
        apply hmem
        rw [vdelOpsE]
        refine List.mem_append.mpr (Or.inr ?_)
        rw [mem_map_remove_iff]
        refine ⟨⟨v, t', d', o'⟩, ?_, ?_⟩
        · rw [revItems_mem h hv]
          refine ⟨rfl, ht', hd', ho', ?_⟩
          rw [← he]
          exact hR0
        · simp only
          rw [he]
      have hnotF : BatchOp.remove (edgeRangeKey o' t' d' i') ∉ vdelOpsF s v := by
        intro hmm
        rw [vdelOpsF] at hmm
        rcases List.mem_append.mp hmm with hmm | hmm
        · obtain ⟨it, hit, hkey⟩ := (mem_map_remove_iff _ _ _).mp hmm
          obtain ⟨hfst, hty, hdt2, hsec, -⟩ := (fwdItems_mem h hv it).mp hit
          have hva : ValidUuid it.first := by
            rw [hfst]
            exact hv
          obtain ⟨h1, -, -, -⟩ := edgeRangeKey_inj hva hdt2 hsec ho' hd' hi' hkey
          exact hov (h1 ▸ hfst)
        · obtain ⟨it, hit, hkey⟩ := (mem_map_remove_iff _ _ _).mp hmm
          obtain ⟨hfst, hty, hdt2, hsec, -⟩ := (revItems_mem h hv it).mp hit
          have hva : ValidUuid it.first := by
            rw [hfst]
            exact hv
          obtain ⟨-, -, -, h4⟩ := edgeRangeKey_inj hsec hdt2 hva ho' hd' hi' hkey
          exact hiv (h4 ▸ hfst)
      rw [hF, get_applyOps, opsEffect_allRemoves_not_mem hallF hnotF]
      exact hF0
  · intro o' t' i' d' ho' ht' hi' hd' hget'
    rw [hE, get_applyOps] at hget'
    by_cases hmem : BatchOp.remove (edgeKey o' t' i') ∈ vdelOpsE s v
    · rw [opsEffect_allRemoves_mem hallE hmem] at hget'
      exact absurd hget' (by simp)
    · rw [opsEffect_allRemoves_not_mem hallE hmem] at hget'
      have hF0 := h.fwdOfEdge o' t' i' d' ho' ht' hi' hd' hget'
      have hR0 := h.revOfEdge o' t' i' d' ho' ht' hi' hd' hget'
      have hov : o' ≠ v := by
        intro he
        apply hmem
        rw [vdelOpsE]
        refine List.mem_append.mpr (Or.inl ?_)
        rw [mem_map_remove_iff]
        refine ⟨⟨v, t', d', i'⟩, ?_, ?_⟩
        · rw [fwdItems_mem h hv]
          refine ⟨rfl, ht', hd', hi', ?_⟩
          rw [← he]
          exact hF0
        · simp only
          rw [he]
      have hiv : i' ≠ v := by
        intro he
        apply hmem
        rw [vdelOpsE]
        refine List.mem_append.mpr (Or.inr ?_)
        rw [mem_map_remove_iff]
        refine ⟨⟨v, t', d', o'⟩, ?_, ?_⟩
        · rw [revItems_mem h hv]
          refine ⟨rfl, ht', hd', ho', ?_⟩
          rw [← he]
          exact hR0
        · simp only
          rw [he]
      have hnotR : BatchOp.remove (edgeRangeKey i' t' d' o') ∉ vdelOpsR s v := by
        intro hmm
        rw [vdelOpsR] at hmm
        rcases List.mem_append.mp hmm with hmm | hmm
        · obtain ⟨it, hit, hkey⟩ := (mem_map_remove_iff _ _ _).mp hmm
          obtain ⟨hfst, hty, hdt2, hsec, -⟩ := (fwdItems_mem h hv it).mp hit
          have hva : ValidUuid it.first := by
            rw [hfst]
            exact hv
          obtain ⟨-, -, -, h4⟩ := edgeRangeKey_inj hsec hdt2 hva hi' hd' ho' hkey
          exact hov (h4 ▸ hfst)
        · obtain ⟨it, hit, hkey⟩ := (mem_map_remove_iff _ _ _).mp hmm
          obtain ⟨hfst, hty, hdt2, hsec, -⟩ := (revItems_mem h hv it).mp hit
          have hva : ValidUuid it.first := by
            rw [hfst]
            exact hv
          obtain ⟨h1, -, -, -⟩ := edgeRangeKey_inj hva hdt2 hsec hi' hd' ho' hkey
          exact hiv (h1 ▸ hfst)
      rw [hR, get_applyOps, opsEffect_allRemoves_not_mem hallR hnotR]
      exact hR0
  · intro a t' d' b2 ha ht' hd' hb hget'
    rw [hF, get_applyOps] at hget'
    by_cases hmem : BatchOp.remove (edgeRangeKey a t' d' b2) ∈ vdelOpsF s v
    · rw [opsEffect_allRemoves_mem hallF hmem] at hget'
      exact absurd hget' (by simp)
    · rw [opsEffect_allRemoves_not_mem hallF hmem] at hget'
      have hE0 := h.edgeOfFwd a t' d' b2 ha ht' hd' hb hget'
      have hav : a ≠ v := by
        intro he
        apply hmem
        rw [vdelOpsF]
        refine List.mem_append.mpr (Or.inl ?_)
        rw [mem_map_remove_iff]
        refine ⟨⟨v, t', d', b2⟩, ?_, ?_⟩
        · rw [fwdItems_mem h hv]
          refine ⟨rfl, ht', hd', hb, ?_⟩
          rw [← he]
          exact hget'
        · simp only
          rw [he]
      have hbv : b2 ≠ v := by
        intro he
        have hR0 := h.revOfEdge a t' b2 d' ha ht' hb hd' hE0
        apply hmem
        rw [vdelOpsF]
        refine List.mem_append.mpr (Or.inr ?_)
        rw [mem_map_remove_iff]
        refine ⟨⟨b2, t', d', a⟩, ?_, ?_⟩
        · rw [revItems_mem h hv]
          refine ⟨he, ht', hd', ha, ?_⟩
          rw [← he]
          exact hR0
        · simp only
      have hnotE : BatchOp.remove (edgeKey a t' b2) ∉ vdelOpsE s v := by
        intro hmm
        rw [vdelOpsE] at hmm
        rcases List.mem_append.mp hmm with hmm | hmm
        · obtain ⟨it, hit, hkey⟩ := (mem_map_remove_iff _ _ _).mp hmm
          obtain ⟨hfst, hty, hdt2, hsec, -⟩ := (fwdItems_mem h hv it).mp hit
          have hva : ValidUuid it.first := by
            rw [hfst]
            exact hv
          obtain ⟨h1, -, -⟩ := edgeKey_inj hva hsec ha hb hkey
          exact hav (h1 ▸ hfst)
        · obtain ⟨it, hit, hkey⟩ := (mem_map_remove_iff _ _ _).mp hmm
          obtain ⟨hfst, hty, hdt2, hsec, -⟩ := (revItems_mem h hv it).mp hit
          have hva : ValidUuid it.first := by
            rw [hfst]
            exact hv
          obtain ⟨-, -, h3⟩ := edgeKey_inj hsec hva ha hb hkey
          exact hbv (h3 ▸ hfst)
      rw [hE, get_applyOps, opsEffect_allRemoves_not_mem hallE hnotE]
      exact hE0
  · intro a t' d' b2 ha ht' hd' hb hget'
    rw [hR, get_applyOps] at hget'
    by_cases hmem : BatchOp.remove (edgeRangeKey a t' d' b2) ∈ vdelOpsR s v
    · rw [opsEffect_allRemoves_mem hallR hmem] at hget'
      exact absurd hget' (by simp)
    · rw [opsEffect_allRemoves_not_mem hallR hmem] at hget'
      have hE0 := h.edgeOfRev a t' d' b2 ha ht' hd' hb hget'
      have hav : a ≠ v := by
        intro he
        apply hmem
        rw [vdelOpsR]
        refine List.mem_append.mpr (Or.inr ?_)
        rw [mem_map_remove_iff]
        refine ⟨⟨v, t', d', b2⟩, ?_, ?_⟩
        · rw [revItems_mem h hv]
          refine ⟨rfl, ht', hd', hb, ?_⟩
          rw [← he]
          exact hget'
        · simp only
          rw [he]
      have hbv : b2 ≠ v := by
        intro he
        have hFf := h.fwdOfEdge b2 t' a d' hb ht' ha hd' hE0
        apply hmem
        rw [vdelOpsR]
        refine List.mem_append.mpr (Or.inl ?_)
        rw [mem_map_remove_iff]
        refine ⟨⟨b2, t', d', a⟩, ?_, ?_⟩
        · rw [fwdItems_mem h hv]
          refine ⟨he, ht', hd', ha, ?_⟩
          rw [← he]
          exact hFf
        · simp only
      have hnotE : BatchOp.remove (edgeKey b2 t' a) ∉ vdelOpsE s v := by
        intro hmm
        rw [vdelOpsE] at hmm
        rcases List.mem_append.mp hmm with hmm | hmm
        · obtain ⟨it, hit, hkey⟩ := (mem_map_remove_iff _ _ _).mp hmm
          obtain ⟨hfst, hty, hdt2, hsec, -⟩ := (fwdItems_mem h hv it).mp hit
          have hva : ValidUuid it.first := by
            rw [hfst]
            exact hv
          obtain ⟨h1, -, -⟩ := edgeKey_inj hva hsec hb ha hkey
          exact hbv (h1 ▸ hfst)
        · obtain ⟨it, hit, hkey⟩ := (mem_map_remove_iff _ _ _).mp hmm
          obtain ⟨hfst, hty, hdt2, hsec, -⟩ := (revItems_mem h hv it).mp hit
          have hva : ValidUuid it.first := by
            rw [hfst]
            exact hv
          obtain ⟨-, -, h3⟩ := edgeKey_inj hsec hva hb ha hkey
          exact hav (h3 ▸ hfst)
      rw [hE, get_applyOps, opsEffect_allRemoves_not_mem hallE hnotE]
      exact hE0

/-! ### Sequences of graph operations, each applied in its own batch -/

/-- The graph mutations of claim C2: vertex create, edge set, edge delete
(called with the currently stored datetime, as its callers do), and vertex
cascade delete. -/
inductive GraphOp where
  | createV (id : Nat) (t : List Byte)
  | setE (o : Nat) (t : List Byte) (i : Nat) (d : Nat)
  | delE (o : Nat) (t : List Byte) (i : Nat)
  | delV (v : Nat)
  deriving DecidableEq, Repr

/-- Component validity of one operation. -/
def GraphOp.Valid : GraphOp → Prop
  | .createV id t => ValidUuid id ∧ ValidTy t
  | .setE o t i d => ValidUuid o ∧ ValidTy t ∧ ValidUuid i ∧ ValidDT d
  | .delE o t i => ValidUuid o ∧ ValidTy t ∧ ValidUuid i
  | .delV v => ValidUuid v

instance (op : GraphOp) : Decidable op.Valid := by
  cases op <;> simp only [GraphOp.Valid] <;> infer_instance

/-- Run one operation: each batched operation builds its batch from empty and
applies it immediately.  `delE` is called with the currently stored datetime,
obtained from `EdgeManager::get`; on a missing edge the caller has no datetime
to pass and the operation does nothing. -/
def runOp (s : SledState) : GraphOp → SledState
  | .createV id t => VertexManager.create s id t
  | .setE o t i d => (EdgeManager.set s UberBatch.empty o t i d).apply s
  | .delE o t i =>
    match EdgeManager.get s o t i with
    | some dcur => (EdgeManager.delete s UberBatch.empty o t i dcur).apply s
    | none => s
  | .delV v => (VertexManager.delete s UberBatch.empty v).apply s

/-- Run a sequence of operations from a starting state. -/
def runOps (l : List GraphOp) (s : SledState) : SledState :=
  l.foldl runOp s

theorem InvS_runOp {s : SledState} (h : InvS s) {op : GraphOp} (hop : op.Valid) :
    InvS (runOp s op) := by
  cases op with
  | createV id t => exact InvS_create h id t
  | setE o t i d =>
    obtain ⟨ho, ht, hi, hd⟩ := hop
    exact InvS_setEdge h ho ht hi hd
  | delE o t i =>
    obtain ⟨ho, ht, hi⟩ := hop
    rw [runOp]
    cases hg : EdgeManager.get s o t i with
    | none => exact h
    | some dcur => exact InvS_delEdge h ho ht hi hg
  | delV v => exact InvS_delVertex h hop

/-- C2: starting from the empty store, after any sequence of create / set /
delete-with-current-datetime / cascade-delete operations, each applied in its
own batch, the index symmetry invariant holds: every edge record `(o,t,i) → d`
has exactly one forward entry `(o,t,d,i)` and one reverse entry `(i,t,d,o)`,
and every index entry is backed by the matching edge record. -/
theorem C2_index_symmetry (l : List GraphOp) (hval : ∀ op ∈ l, op.Valid) :
    InvS (runOps l SledState.empty) := by
  have main : ∀ (l2 : List GraphOp) (s : SledState), InvS s →
      (∀ op ∈ l2, op.Valid) → InvS (runOps l2 s) := by
    intro l2
    induction l2 with
    | nil => exact fun s hs _ => hs
    | cons op rest ih =>
      intro s hs hv2
      rw [show runOps (op :: rest) s = runOps rest (runOp s op) from rfl]
      exact ih (runOp s op) (InvS_runOp hs (hv2 op (List.mem_cons_self _ _)))
        fun o ho => hv2 o (List.mem_cons_of_mem _ ho)
  exact main l SledState.empty InvS_empty hval

/-- C2 witness: the invariant after a concrete create / set / overwrite /
cascade-delete sequence. -/
theorem C2_index_symmetry_witness :
    (∀ op ∈ [GraphOp.createV 0 [7], GraphOp.setE 0 [7] 1 5, GraphOp.setE 0 [7] 1 9,
      GraphOp.delV 1], op.Valid)
      ∧ InvS (runOps [GraphOp.createV 0 [7], GraphOp.setE 0 [7] 1 5,
        GraphOp.setE 0 [7] 1 9, GraphOp.delV 1] SledState.empty) :=
  ⟨by decide, C2_index_symmetry _ (by decide)⟩

/-! ### Cascade completeness -/

/-- Every edge-property entry lies on an existing edge record.  This is the
hypothesis the counterexample to the original claim C3 forces: I1 and I2 say
nothing about the edge-property keyspace, and the cascade discovers edge
properties only through existing edges. -/
def EPSound (s : SledState) : Prop :=
  ∀ kv ∈ s.edge_properties, ∀ o t i n, ValidUuid o → ValidTy t → ValidUuid i →
    kv.1 = edgePropKey o t i n → (s.edges.get (edgeKey o t i)).isSome

theorem mem_vpRemoves {s : SledState} {v : Nat} {n val : List Byte}
    (hv : ValidUuid v) (hmem : (vertexPropKey v n, val) ∈ s.vertex_properties) :
    BatchOp.remove (vertexPropKey v n) ∈ vpRemoves s v := by
  rw [vpRemoves, List.mem_map]
  refine ⟨((v, n), val), ?_, rfl⟩
  rw [VertexPropertyManager.iterate_for_owner, List.mem_map]
  refine ⟨(vertexPropKey v n, val), ?_, ?_⟩
  · rw [Store.mem_scanPfx_iff]
    exact ⟨hmem, isPrefixOf_append _ _⟩
  · rw [decodeVertexPropKey_enc hv]

theorem mem_epRemoves {s : SledState} {o : Nat} {t : List Byte} {i : Nat}
    {n val : List Byte} (ho : ValidUuid o) (hi : ValidUuid i)
    (hmem : (edgePropKey o t i n, val) ∈ s.edge_properties) :
    BatchOp.remove (edgePropKey o t i n) ∈ epRemoves s o t i := by
  rw [epRemoves, List.mem_map]
  refine ⟨((o, t, i, n), val), ?_, rfl⟩
  rw [EdgePropertyManager.iterate_for_owner, List.mem_map]
  refine ⟨(edgePropKey o t i n, val), ?_, ?_⟩
  · rw [Store.mem_scanPfx_iff]
    refine ⟨hmem, ?_⟩
    rw [show edgePropKey o t i n = edgePropKeyPfx o t i ++ n from by
      simp [edgePropKey, edgePropKeyPfx, List.append_assoc]]
    exact isPrefixOf_append _ _
  · rw [decodeEdgePropKey_enc ho hi]

/-- C3 (amended): from a state satisfying I1 and I2 in which additionally
every edge-property entry lies on an existing edge record, deleting a vertex
`v` and applying the batch leaves no record referencing `v` in any of the six
keyspaces: no vertex record at `v`, no vertex property owned by `v`, no edge
record with endpoint `v`, no forward or reverse index entry whose key contains
`v`, and no edge-property entry on an edge incident to `v`. -/
theorem C3_cascade_completeness (s : SledState) (v : Nat) (h : InvS s)
    (hep : EPSound s) (hv : ValidUuid v) :
    ((VertexManager.delete s UberBatch.empty v).apply s).vertices.get (vertexKey v)
        = none
      ∧ (∀ kv ∈ ((VertexManager.delete s UberBatch.empty v).apply s).vertex_properties,
          (encUuid v).isPrefixOf kv.1 = false)
      ∧ (∀ o t i, ValidUuid o → ValidTy t → ValidUuid i → o = v ∨ i = v →
          ((VertexManager.delete s UberBatch.empty v).apply s).edges.get (edgeKey o t i)
            = none)
      ∧ (∀ a t d b2, ValidUuid a → ValidTy t → ValidDT d → ValidUuid b2 →
          a = v ∨ b2 = v →
          ((VertexManager.delete s UberBatch.empty v).apply s).edge_ranges.get
            (edgeRangeKey a t d b2) = none)
      ∧ (∀ a t d b2, ValidUuid a → ValidTy t → ValidDT d → ValidUuid b2 →
          a = v ∨ b2 = v →
          ((VertexManager.delete s UberBatch.empty v).apply s).reversed_edge_ranges.get
            (edgeRangeKey a t d b2) = none)
      ∧ (∀ kv ∈ ((VertexManager.delete s UberBatch.empty v).apply s).edge_properties,
          ∀ o t i n, ValidUuid o → ValidTy t → ValidUuid i →
          kv.1 = edgePropKey o t i n → o ≠ v ∧ i ≠ v) := by
  have hallE := allRemoves_vdelOpsE s v
  have hallF := allRemoves_vdelOpsF s v
  have hallR := allRemoves_vdelOpsR s v
  have hallEP := allRemoves_vdelOpsEP s v
  have hallVP := allRemoves_vpRemoves s v
  have hE : ((VertexManager.delete s UberBatch.empty v).apply s).edges
      = applyOps (vdelOpsE s v) s.edges := by
    rw [apply_edges, vdel_batch_edges]
  have hF : ((VertexManager.delete s UberBatch.empty v).apply s).edge_ranges
      = applyOps (vdelOpsF s v) s.edge_ranges := by
    rw [apply_edge_ranges, vdel_batch_F]
  have hR : ((VertexManager.delete s UberBatch.empty v).apply s).reversed_edge_ranges
      = applyOps (vdelOpsR s v) s.reversed_edge_ranges := by
    rw [apply_reversed_edge_ranges, vdel_batch_R]
  have hVP : ((VertexManager.delete s UberBatch.empty v).apply s).vertex_properties
      = applyOps (vpRemoves s v) s.vertex_properties := by
    rw [apply_vertex_properties, vdel_batch_vp]
  have hEP : ((VertexManager.delete s UberBatch.empty v).apply s).edge_properties
      = applyOps (vdelOpsEP s v) s.edge_properties := by
    rw [apply_edge_properties, vdel_batch_ep]
  refine ⟨?_, ?_, ?_, ?_, ?_, ?_⟩
  · rw [apply_vertices, vdel_batch_vertices, get_applyOps, opsEffect_single_remove,
      if_pos rfl]
  · rintro ⟨k1, val⟩ hkv
    rw [hVP] at hkv
    cases hb : (encUuid v).isPrefixOf k1 with
    | false => rfl
    | true =>
      obtain ⟨r, hr⟩ := eq_append_of_isPrefixOf hb
      have hmemS : (k1, val) ∈ s.vertex_properties :=
        mem_applyOps_of_allRemoves hallVP hkv
      have hrem : BatchOp.remove k1 ∈ vpRemoves s v := by
        rw [hr] at hmemS ⊢
        exact mem_vpRemoves hv hmemS
      have hnone : (applyOps (vpRemoves s v) s.vertex_properties).get k1 = none := by
        rw [get_applyOps]
        exact opsEffect_allRemoves_mem hallVP hrem _
      have hsome : (applyOps (vpRemoves s v) s.vertex_properties).get k1 = some val :=
        Store.get_eq_some_of_mem (Store.WF_applyOps h.wfVP _) hkv
      rw [hnone] at hsome
      exact absurd hsome (by simp)
  · intro o t i ho ht hi hcase
    rw [hE, get_applyOps]
    cases hget : s.edges.get (edgeKey o t i) with
    | none => exact opsEffect_allRemoves_none hallE _
    | some val =>
      obtain ⟨d0, hd0, rfl, -⟩ := h.get_edges_decomp ho hi hget
      rcases hcase with he | he
      · subst he
        have hF0 := h.fwdOfEdge o t i d0 ho ht hi hd0 hget
        refine opsEffect_allRemoves_mem hallE ?_ _
        rw [vdelOpsE]
        refine List.mem_append.mpr (Or.inl ?_)
        rw [mem_map_remove_iff]
        exact ⟨⟨o, t, d0, i⟩, (fwdItems_mem h hv _).mpr ⟨rfl, ht, hd0, hi, hF0⟩, rfl⟩
      · subst he
        have hR0 := h.revOfEdge o t i d0 ho ht hi hd0 hget
        refine opsEffect_allRemoves_mem hallE ?_ _
        rw [vdelOpsE]
        refine List.mem_append.mpr (Or.inr ?_)
        rw [mem_map_remove_iff]
        exact ⟨⟨i, t, d0, o⟩, (revItems_mem h hv _).mpr ⟨rfl, ht, hd0, ho, hR0⟩, rfl⟩
  · intro a t d b2 ha ht hd hb hcase
    rw [hF, get_applyOps]
    cases hget : s.edge_ranges.get (edgeRangeKey a t d b2) with
    | none => exact opsEffect_allRemoves_none hallF _
    | some val =>
      obtain ⟨rfl, -⟩ := h.get_fwd_decomp ha hd hb hget
      rcases hcase with he | he
      · subst he
        refine opsEffect_allRemoves_mem hallF ?_ _
        rw [vdelOpsF]
        refine List.mem_append.mpr (Or.inl ?_)
        rw [mem_map_remove_iff]
        exact ⟨⟨a, t, d, b2⟩, (fwdItems_mem h hv _).mpr ⟨rfl, ht, hd, hb, hget⟩, rfl⟩
      · subst he
        have hE0 := h.edgeOfFwd a t d b2 ha ht hd hb hget
        have hR0 := h.revOfEdge a t b2 d ha ht hb hd hE0
        refine opsEffect_allRemoves_mem hallF ?_ _
        rw [vdelOpsF]
        refine List.mem_append.mpr (Or.inr ?_)
        rw [mem_map_remove_iff]
        exact ⟨⟨b2, t, d, a⟩, (revItems_mem h hv _).mpr ⟨rfl, ht, hd, ha, hR0⟩, rfl⟩
  · intro a t d b2 ha ht hd hb hcase
    rw [hR, get_applyOps]
    cases hget : s.reversed_edge_ranges.get (edgeRangeKey a t d b2) with
    | none => exact opsEffect_allRemoves_none hallR _
    | some val =>
      obtain ⟨rfl, -⟩ := h.get_rev_decomp ha hd hb hget
      rcases hcase with he | he
      · subst he
        refine opsEffect_allRemoves_mem hallR ?_ _
        rw [vdelOpsR]
        refine List.mem_append.mpr (Or.inr ?_)
        rw [mem_map_remove_iff]
        exact ⟨⟨a, t, d, b2⟩, (revItems_mem h hv _).mpr ⟨rfl, ht, hd, hb, hget⟩, rfl⟩
      · subst he
        have hE0 := h.edgeOfRev a t d b2 ha ht hd hb hget
        have hFf := h.fwdOfEdge b2 t a d hb ht ha hd hE0
        refine opsEffect_allRemoves_mem hallR ?_ _
        rw [vdelOpsR]
        refine List.mem_append.mpr (Or.inl ?_)
        rw [mem_map_remove_iff]
        exact ⟨⟨b2, t, d, a⟩, (fwdItems_mem h hv _).mpr ⟨rfl, ht, hd, ha, hFf⟩, rfl⟩
  · rintro ⟨k1, val⟩ hkv o t i n ho ht hi hkey
    simp only at hkey
    rw [hEP] at hkv
    have hmemS : (k1, val) ∈ s.edge_properties :=
      mem_applyOps_of_allRemoves hallEP hkv
    have hsome : (applyOps (vdelOpsEP s v) s.edge_properties).get k1 = some val :=
      Store.get_eq_some_of_mem (Store.WF_applyOps h.wfEP _) hkv
    have hedge := hep (k1, val) hmemS o t i n ho ht hi hkey
    obtain ⟨ev, hgetE⟩ := Option.isSome_iff_exists.mp hedge
    obtain ⟨d0, hd0, rfl, -⟩ := h.get_edges_decomp ho hi hgetE
    constructor
    · intro he
      subst he
      have hF0 := h.fwdOfEdge o t i d0 ho ht hi hd0 hgetE
      have hit : (⟨o, t, d0, i⟩ : RangeItem) ∈ fwdItems s o :=
        (fwdItems_mem h hv _).mpr ⟨rfl, ht, hd0, hi, hF0⟩
      have hrem : BatchOp.remove k1 ∈ vdelOpsEP s o := by
        rw [vdelOpsEP]
        refine List.mem_append.mpr (Or.inl (List.mem_flatMap.mpr ⟨⟨o, t, d0, i⟩, hit, ?_⟩))
        rw [hkey] at hmemS ⊢
        exact mem_epRemoves ho hi hmemS
      rw [get_applyOps, opsEffect_allRemoves_mem hallEP hrem] at hsome
      exact absurd hsome (by simp)
    · intro he
      subst he
      have hR0 := h.revOfEdge o t i d0 ho ht hi hd0 hgetE
      have hit : (⟨i, t, d0, o⟩ : RangeItem) ∈ revItems s i :=
        (revItems_mem h hv _).mpr ⟨rfl, ht, hd0, ho, hR0⟩
      have hrem : BatchOp.remove k1 ∈ vdelOpsEP s i := by
        rw [vdelOpsEP]
        refine List.mem_append.mpr (Or.inr (List.mem_flatMap.mpr ⟨⟨i, t, d0, o⟩, hit, ?_⟩))
        rw [hkey] at hmemS ⊢
        exact mem_epRemoves ho hi hmemS
      rw [get_applyOps, opsEffect_allRemoves_mem hallEP hrem] at hsome
      exact absurd hsome (by simp)

/-- C3 counterexample: a state holding one orphan edge-property entry on the
(nonexistent) edge `(0,[7],1)` satisfies I1 and I2, yet after deleting vertex
`0` the entry — which references vertex `0` with valid components — is still
stored: the cascade only reaches edge properties through existing edges. -/
theorem C3_counterexample :
    InvS { SledState.empty with edge_properties := [(edgePropKey 0 [7] 1 [9], [3])] }
      ∧ ((VertexManager.delete
            { SledState.empty with edge_properties := [(edgePropKey 0 [7] 1 [9], [3])] }
            UberBatch.empty 0).apply
          { SledState.empty with
            edge_properties := [(edgePropKey 0 [7] 1 [9], [3])] }).edge_properties.get
          (edgePropKey 0 [7] 1 [9]) = some [3]
      ∧ ValidUuid 0 ∧ ValidTy [7] ∧ ValidUuid 1 := by
  refine ⟨?_, by decide, by decide, by decide, by decide⟩
  refine ⟨List.Pairwise.nil, List.Pairwise.nil, List.Pairwise.nil, List.Pairwise.nil,
    List.Pairwise.nil, List.pairwise_singleton _ _, ?_, ?_, ?_, ?_, ?_, ?_, ?_⟩
  · intro kv hkv
    simp [SledState.empty] at hkv
  · intro kv hkv
    simp [SledState.empty] at hkv
  · intro kv hkv
    simp [SledState.empty] at hkv
  · intro o t i d _ _ _ _ hget
    simp [SledState.empty, Store.get] at hget
  · intro o t i d _ _ _ _ hget
    simp [SledState.empty, Store.get] at hget
  · intro a t d b2 _ _ _ _ hget
    simp [SledState.empty, Store.get] at hget
  · intro a t d b2 _ _ _ _ hget
    simp [SledState.empty, Store.get] at hget

/-- C3 witness: the amended cascade completeness applied at the empty store. -/
theorem C3_cascade_completeness_witness :
    InvS SledState.empty ∧ EPSound SledState.empty ∧ ValidUuid 0
      ∧ ((VertexManager.delete SledState.empty UberBatch.empty 0).apply
          SledState.empty).vertices.get (vertexKey 0) = none := by
  have hepe : EPSound SledState.empty := by
    intro kv hkv
    simp [SledState.empty] at hkv
  exact ⟨InvS_empty, hepe, by decide,
    (C3_cascade_completeness SledState.empty 0 InvS_empty hepe (by decide)).1⟩

/-- C4: evaluating `iterate_for_range(id, Some(t), Some(high))` at concrete
inputs.  The scan starts at the key `(id, t, high)` and runs in ascending key
order, so (with the order-preserving datetime codec of the spec) it yields the
entries with datetime at or after `high`, not at or before it: the entry at
datetime `0 ≤ 1` is not returned, the entry at datetime `2 > 1` is. -/
theorem C4_iterate_for_range_eval :
    EdgeRangeManager.iterate_for_range [(edgeRangeKey 1 [7] 0 2, [])] 1 (some [7]) (some 1)
        = []
      ∧ EdgeRangeManager.iterate_for_range [(edgeRangeKey 1 [7] 2 2, [])] 1 (some [7])
          (some 1) = [⟨1, [7], 2, 2⟩]
      ∧ (0 : Nat) ≤ 1 ∧ ¬(2 : Nat) ≤ 1 := by
  refine ⟨rfl, ?_, by decide, by decide⟩
  rfl

end IndraSled
